import Mathlib

/-!
# exhaustigen: the counter-trace engine and its combinators

A shallow embedding of `src/exhaustigen.hpp` (class `exhaustigen::Gen`) and of the
driver loops of `src/test.cpp`.

* The engine state is the pair of private members `v` (the trace, a vector of
  `(first, second)` = `(current, bound)` pairs) and `p` (the cursor).
* `size_t` values are modelled as `Nat`.  The only arithmetic of the class is
  `i->first += 1` (executed under `i->first < i->second`, so it cannot wrap),
  `p += 1` (with `p <= v.size()` whenever the following `v.at(p - 1)` succeeds, and a
  vector of 16-byte pairs has fewer than `2^64` elements), `sz - 1` under `sz > 0` and
  `idxs.size() - 1` under `!idxs.empty()`.
* A C++ exception (`std::out_of_range` from `.at`) or an out-of-range iterator is
  the result `none`.
-/

namespace Exhaustigen

/-- The members of `class Gen`: the trace `v` and the cursor `p`. -/
structure Gen where
  v : List (Nat × Nat)
  p : Nat
deriving DecidableEq, Repr

/-- A freshly constructed engine: empty trace, `p{0}`. -/
def Gen.fresh : Gen := ⟨[], 0⟩

/-- The body of the reverse-iterator loop of `is_done`, on the trace listed from
its last counter to its first: the first counter met with `first < second` is
incremented and the counters met before it (the later ones of the trace) are
dropped; `none` when the loop runs to `v.rend()`. -/
def scan : List (Nat × Nat) → Option (List (Nat × Nat))
  | [] => none
  | c :: rest => if c.1 < c.2 then some ((c.1 + 1, c.2) :: rest) else scan rest

/-- `Gen::is_done`: the returned boolean and the engine afterwards. -/
def is_done (g : Gen) : Bool × Gen :=
  match scan g.v.reverse with
  | some r => (false, ⟨r.reverse, 0⟩)
  | none => (true, g)

/-- `Gen::gen`: the returned value and the engine afterwards, `none` when
`v.at(p - 1)` throws. -/
def gen (g : Gen) (inclusive_upper_bound : Nat) : Option (Nat × Gen) :=
  let v1 := if g.p = g.v.length then g.v ++ [(0, 0)] else g.v
  let p1 := g.p + 1
  match v1[p1 - 1]? with
  | none => none
  | some pair => some (pair.1, ⟨v1.set (p1 - 1) (pair.1, inclusive_upper_bound), p1⟩)

/-- The driver `do { body(g); } while (!g.is_done());` started on engine `g`, with
at most `fuel` passes: the list of the values the passes produced, in order, once
`is_done` has returned `true`; `none` when a pass throws or the fuel runs out. -/
def loop {β : Type} (body : Gen → Option (β × Gen)) : Nat → Gen → Option (List β)
  | 0, _ => none
  | fuel + 1, g =>
    match body g with
    | none => none
    | some (x, g1) =>
      if (is_done g1).1 then some [x]
      else (loop body fuel (is_done g1).2).map (fun xs => x :: xs)

/-- The check-first driver `while (!g.is_done()) { body(g); }`. -/
def loopHead {β : Type} (body : Gen → Option (β × Gen)) : Nat → Gen → Option (List β)
  | 0, _ => none
  | fuel + 1, g =>
    if (is_done g).1 then some []
    else
      match body (is_done g).2 with
      | none => none
      | some (x, g1) => (loopHead body fuel g1).map (fun xs => x :: xs)

/-- `Gen::flip`: `gen(1) == 1`. -/
def flip (g : Gen) : Option (Bool × Gen) :=
  match gen g 1 with
  | none => none
  | some (x, g1) => some (x == 1, g1)

/-- The `for (auto &v : r) v = gen(elt_bound);` loop of `gen_vec` with `n` elements
of the vector still to assign, `r` being the elements assigned so far. -/
def gen_vec_fill (elt_bound : Nat) : Nat → List Nat → Gen → Option (List Nat × Gen)
  | 0, r, g => some (r, g)
  | n + 1, r, g =>
    match gen g elt_bound with
    | none => none
    | some (x, g1) => gen_vec_fill elt_bound n (r ++ [x]) g1

/-- `Gen::gen_vec`: a vector of `gen(len_bound)` elements, each then assigned
`gen(elt_bound)` in order. -/
def gen_vec (len_bound elt_bound : Nat) (g : Gen) : Option (List Nat × Gen) :=
  match gen g len_bound with
  | none => none
  | some (n, g1) => gen_vec_fill elt_bound n [] g1

/-- The `for (size_t i = 0; i < n; ++i)` loop of `gen_comb` with `k` rounds left
and result `r` so far; `none` when `in.at` throws. -/
def gen_comb_loop {T : Type} (inp : List T) (sz : Nat) :
    Nat → List T → Gen → Option (List T × Gen)
  | 0, r, g => some (r, g)
  | k + 1, r, g =>
    match gen g (sz - 1) with
    | none => none
    | some (i, g1) =>
      match inp[i]? with
      | none => none
      | some x => gen_comb_loop inp sz k (r ++ [x]) g1

/-- `Gen::gen_comb`. -/
def gen_comb {T : Type} (inp : List T) (g : Gen) : Option (List T × Gen) :=
  if inp.length > 0 then
    match gen g inp.length with
    | none => none
    | some (n, g1) => gen_comb_loop inp inp.length n [] g1
  else some ([], g)

/-- The `while (!idxs.empty())` loop of `gen_perm` with candidate pool `idxs` and
result `r` so far.  Every round erases one element of `idxs`, so `fuel` rounds
are enough from `fuel = idxs.size()`.  `none` when the iterator
`idxs.begin() + gen(..)` is not dereferenceable or `in.at` throws. -/
def gen_perm_loop {T : Type} (inp : List T) :
    Nat → List Nat → List T → Gen → Option (List T × Gen)
  | _, [], r, g => some (r, g)
  | 0, _ :: _, _, _ => none
  | fuel + 1, i0 :: is, r, g =>
    match gen g ((i0 :: is).length - 1) with
    | none => none
    | some (j, g1) =>
      match (i0 :: is)[j]? with
      | none => none
      | some ix =>
        match inp[ix]? with
        | none => none
        | some x => gen_perm_loop inp fuel ((i0 :: is).eraseIdx j) (r ++ [x]) g1

/-- `Gen::gen_perm`. -/
def gen_perm {T : Type} (inp : List T) (g : Gen) : Option (List T × Gen) :=
  if inp.length > 0 then
    gen_perm_loop inp inp.length (List.range inp.length) [] g
  else some ([], g)

/-- The `for (auto const &i : in)` loop of `gen_subset` over the remaining items,
with result `r` so far. -/
def gen_subset_loop {T : Type} : List T → List T → Gen → Option (List T × Gen)
  | [], r, g => some (r, g)
  | i :: rest, r, g =>
    match flip g with
    | none => none
    | some (f, g1) => gen_subset_loop rest (if f then r ++ [i] else r) g1

/-- `Gen::gen_subset`. -/
def gen_subset {T : Type} (inp : List T) (g : Gen) : Option (List T × Gen) :=
  gen_subset_loop inp [] g

/-- The body `x = g.gen(n);`. -/
def body_gen (n : Nat) (g : Gen) : Option (Nat × Gen) := gen g n

/-- The body `x = g.gen(a); y = g.gen(b);`. -/
def body_gen2 (a b : Nat) (g : Gen) : Option ((Nat × Nat) × Gen) :=
  match gen g a with
  | none => none
  | some (x, g1) =>
    match gen g1 b with
    | none => none
    | some (y, g2) => some ((x, y), g2)

/-! ## Deterministic bodies -/

/-- A deterministic body, as its decision tree: the body either finishes with a
result (`ret`) or calls `gen` with a bound and goes on as a function of the value
returned (`draw`).  The bound of a call and whether a further call is made depend
only on the values returned so far, and every path is finite. -/
inductive Body (α : Type) where
  | ret : α → Body α
  | draw : Nat → (Nat → Body α) → Body α

/-- One pass of a body on the engine: the list of `(value returned, bound
requested)` of its `gen` calls in call order, its result, and the engine
afterwards. -/
def Body.run {α : Type} : Body α → Gen → Option ((List (Nat × Nat) × α) × Gen)
  | .ret a, g => some (([], a), g)
  | .draw b k, g =>
    match gen g b with
    | none => none
    | some (x, g1) =>
      match Body.run (k x) g1 with
      | none => none
      | some (r, g2) => some (((x, b) :: r.1, r.2), g2)

/-- The leaves of the decision tree in depth-first order, children by increasing
value: for each leaf the `(value, bound)` list of its path and the result. -/
def Body.leaves {α : Type} : Body α → List (List (Nat × Nat) × α)
  | .ret a => [([], a)]
  | .draw b k =>
    (List.range (b + 1)).flatMap
      (fun x => (Body.leaves (k x)).map (fun l => ((x, b) :: l.1, l.2)))

/-- The sequence `vs` is a leaf of the decision tree: each value is at most the
bound the body requests at its position after the earlier values, and after the
last one the body makes no further draw. -/
def Body.isLeaf {α : Type} : Body α → List Nat → Bool
  | .ret _, vs => vs.isEmpty
  | .draw _ _, [] => false
  | .draw b k, x :: vs => decide (x ≤ b) && Body.isLeaf (k x) vs

/-- The values drawn along each leaf of the decision tree, leaves in depth-first
order. -/
def Body.paths {α : Type} (B : Body α) : List (List Nat) :=
  B.leaves.map (fun l => l.1.map Prod.fst)

/-- The values the `gen` calls of a pass returned, from what `Body.run` records. -/
def drawn {α : Type} (r : List (Nat × Nat) × α) : List Nat := r.1.map Prod.fst

/-- One pass of a body, the record of its draws forgotten: the result and the
engine afterwards. -/
def Body.eval {α : Type} (B : Body α) (g : Gen) : Option (α × Gen) :=
  match B.run g with
  | none => none
  | some (r, g1) => some (r.2, g1)

/-- One pass of a body that may throw (result `none`), the record of its draws
forgotten. -/
def Body.evalOpt {α : Type} (B : Body (Option α)) (g : Gen) : Option (α × Gen) :=
  match B.run g with
  | none => none
  | some (r, g1) =>
    match r.2 with
    | none => none
    | some a => some (a, g1)

/-- The decision tree of `body_gen`. -/
def body_gen_tree (n : Nat) : Body Nat := .draw n (fun x => .ret x)

/-- The decision tree of `body_gen2`. -/
def body_gen2_tree (a b : Nat) : Body (Nat × Nat) :=
  .draw a (fun x => .draw b (fun y => .ret (x, y)))

/-- The decision tree of `gen_vec_fill`. -/
def gen_vec_fill_tree (elt_bound : Nat) : Nat → List Nat → Body (List Nat)
  | 0, r => .ret r
  | n + 1, r => .draw elt_bound (fun x => gen_vec_fill_tree elt_bound n (r ++ [x]))

/-- The decision tree of `gen_vec`. -/
def gen_vec_tree (len_bound elt_bound : Nat) : Body (List Nat) :=
  .draw len_bound (fun n => gen_vec_fill_tree elt_bound n [])

/-- The decision tree of `gen_comb_loop`; a throwing `in.at` is the result `none`. -/
def gen_comb_loop_tree {T : Type} (inp : List T) (sz : Nat) :
    Nat → List T → Body (Option (List T))
  | 0, r => .ret (some r)
  | k + 1, r =>
    .draw (sz - 1) (fun i =>
      match inp[i]? with
      | none => .ret none
      | some x => gen_comb_loop_tree inp sz k (r ++ [x]))

/-- The decision tree of `gen_comb`. -/
def gen_comb_tree {T : Type} (inp : List T) : Body (Option (List T)) :=
  if inp.length > 0 then
    .draw inp.length (fun n => gen_comb_loop_tree inp inp.length n [])
  else .ret (some [])

/-- The decision tree of `gen_perm_loop`; a failing access is the result `none`. -/
def gen_perm_loop_tree {T : Type} (inp : List T) :
    Nat → List Nat → List T → Body (Option (List T))
  | _, [], r => .ret (some r)
  | 0, _ :: _, _ => .ret none
  | fuel + 1, i0 :: is, r =>
    .draw ((i0 :: is).length - 1) (fun j =>
      match (i0 :: is)[j]? with
      | none => .ret none
      | some ix =>
        match inp[ix]? with
        | none => .ret none
        | some x => gen_perm_loop_tree inp fuel ((i0 :: is).eraseIdx j) (r ++ [x]))

/-- The decision tree of `gen_perm`. -/
def gen_perm_tree {T : Type} (inp : List T) : Body (Option (List T)) :=
  if inp.length > 0 then
    gen_perm_loop_tree inp inp.length (List.range inp.length) []
  else .ret (some [])

/-- The decision tree of `gen_subset_loop`. -/
def gen_subset_loop_tree {T : Type} : List T → List T → Body (List T)
  | [], r => .ret r
  | i :: rest, r =>
    .draw 1 (fun x => gen_subset_loop_tree rest (if (x == 1) = true then r ++ [i] else r))

/-- The decision tree of `gen_subset`. -/
def gen_subset_tree {T : Type} (inp : List T) : Body (List T) :=
  gen_subset_loop_tree inp []

/-- What two nested fixed-bound loops produce:
`for x in 0..a: for y in 0..b: (x, y)`. -/
def nestedPairs (a b : Nat) : List (Nat × Nat) :=
  (List.range (a + 1)).flatMap (fun x => (List.range (b + 1)).map (fun y => (x, y)))

/-- All sequences of length `l` with elements in `[0, e]`, in lexicographic order. -/
def seqsOfLen (e : Nat) : Nat → List (List Nat)
  | 0 => [[]]
  | l + 1 => (List.range (e + 1)).flatMap (fun x => (seqsOfLen e l).map (fun s => x :: s))

/-- All sequences of length `0..L` with elements in `[0, e]`: by increasing length,
those of one length in lexicographic order. -/
def seqsUpTo (L e : Nat) : List (List Nat) :=
  (List.range (L + 1)).flatMap (seqsOfLen e)

/-- All boolean masks of length `n`, in lexicographic order with `false` first. -/
def allMasks : Nat → List (List Bool)
  | 0 => [[]]
  | n + 1 => [false, true].flatMap (fun f => (allMasks n).map (fun m => f :: m))

/-- The items of `inp` whose mask bit is `true`, in input order. -/
def select {T : Type} : List T → List Bool → List T
  | i :: rest, f :: fs => if f = true then i :: select rest fs else select rest fs
  | _, _ => []

/-- The flips of a pass of `gen_subset`, from the values its `gen(1)` calls
returned: `flip()` is `gen(1) == 1`. -/
def flips {α : Type} (r : List (Nat × Nat) × α) : List Bool := (drawn r).map (fun x => x == 1)

/-- The pass of `gen_subset_loop` whose flips are the mask `m`, started with result
`r`: its `(value, bound)` draws and its result. -/
def maskPass {T : Type} (inp r : List T) (m : List Bool) : List (Nat × Nat) × List T :=
  (m.map (fun f => (if f = true then 1 else 0, 1)), r ++ select inp m)

/-- The calls `gen(b_1); ...; gen(b_k);` in a row, with no `is_done` call in
between: the values returned, in call order, and the engine afterwards. -/
def gen_seq : List Nat → Gen → Option (List Nat × Gen)
  | [], g => some ([], g)
  | b :: bs, g =>
    match gen g b with
    | none => none
    | some (x, g1) =>
      match gen_seq bs g1 with
      | none => none
      | some (xs, g2) => some (x :: xs, g2)

/-- A call of one of the two primitives of the engine. -/
inductive Call where
  | gen : Nat → Call
  | is_done : Call

/-- The engine after a sequence of calls of `gen` and `is_done`, results dropped;
`none` when a `gen` call throws. -/
def runCalls : List Call → Gen → Option Gen
  | [], g => some g
  | .gen b :: cs, g =>
    match gen g b with
    | none => none
    | some (_, g1) => runCalls cs g1
  | .is_done :: cs, g => runCalls cs (is_done g).2

/-- The items of `inp` at the positions `idxs`, in the order of `idxs`. -/
def atIdx {T : Type} (inp : List T) (idxs : List Nat) : List T :=
  idxs.filterMap (fun i => inp[i]?)

/-- The orderings of a pool of `n` candidates in the order `gen_perm_loop` draws
them: the candidate at offset `j` first, for `j = 0..n-1`, followed by each
ordering of the pool without it. -/
def permsOf : Nat → List Nat → List (List Nat)
  | 0, _ => [[]]
  | n + 1, pool =>
    (List.range (n + 1)).flatMap (fun j =>
      match pool[j]? with
      | none => []
      | some ix => (permsOf n (pool.eraseIdx j)).map (fun s => ix :: s))

/-- The successor relation of the odometer on sequences of draws: `t` agrees with
`s` on a prefix and is larger by exactly one at the first position where they
differ. -/
def OdometerNext (s t : List Nat) : Prop :=
  ∃ (pre : List Nat) (x : Nat) (s1 t1 : List Nat), s = pre ++ x :: s1 ∧ t = pre ++ (x + 1) :: t1

/-- The part of a pass of `gen_comb` inside its `for` loop when the indices drawn are
`s`, started with result `r`: its `(value, bound)` draws and its result. -/
def combPass {T : Type} (inp r : List T) (s : List Nat) :
    List (Nat × Nat) × Option (List T) :=
  (s.map (fun i => (i, inp.length - 1)), some (r ++ atIdx inp s))

/-- The pass of `gen_comb` on a non-empty `inp` that draws the count `s.length` and
then the indices `s`: its `(value, bound)` draws and its result. -/
def combLeaf {T : Type} (inp : List T) (s : List Nat) :
    List (Nat × Nat) × Option (List T) :=
  ((s.length, inp.length) :: s.map (fun i => (i, inp.length - 1)), some (atIdx inp s))

/-- The `(value, bound)` draws along each leaf of the decision tree, leaves in
depth-first order. -/
def Body.records {α : Type} (B : Body α) : List (List (Nat × Nat)) :=
  B.leaves.map Prod.fst

/-- One odometer step with rightmost priority, on the `(value, bound)` draws of two
passes: the passes agree on the draws before some position; at that position the
old value is below its bound and the new value is larger by exactly one, under the
same bound; every later draw of the old pass is at its bound (so the position is the
last one with room to grow); every later draw of the new pass is 0 (drawn afresh). -/
def OdometerStep (s t : List (Nat × Nat)) : Prop :=
  ∃ (pre : List (Nat × Nat)) (x b : Nat) (s1 t1 : List (Nat × Nat)),
    s = pre ++ (x, b) :: s1 ∧ t = pre ++ (x + 1, b) :: t1 ∧ x < b ∧
    (∀ c ∈ s1, c.1 = c.2) ∧ (∀ c ∈ t1, c.1 = 0)

/-- A body with a data-dependent shape: `x = gen(1)`; when `x` is 0 the result is 7,
otherwise the result is `gen(2)`. -/
def demoTree : Body Nat :=
  .draw 1 (fun x => if x = 0 then .ret 7 else .draw 2 (fun y => .ret y))

/-- The engine `g` seen one position deeper, below the counter `c`. -/
def Gen.push (c : Nat × Nat) (g : Gen) : Gen := ⟨c :: g.v, g.p + 1⟩

/-- What a pass one position deeper, after drawing `x` under bound `b`, produces
and leaves, from what the pass below produces and leaves. -/
def liftPass {α : Type} (x b : Nat) (r : (List (Nat × Nat) × α) × Gen) :
    (List (Nat × Nat) × α) × Gen :=
  (((x, b) :: r.1.1, r.1.2), r.2.push (x, b))

/-- A leaf together with the engine a pass along it leaves: the trace is the
`(value, bound)` list of the path and the cursor is its length. -/
def leafEnd {α : Type} (l : List (Nat × Nat) × α) : (List (Nat × Nat) × α) × Gen :=
  (l, ⟨l.1, l.1.length⟩)

/-- The body `f` with the engine it leaves added to what it produces. -/
def withEnd {β : Type} (f : Gen → Option (β × Gen)) (g : Gen) : Option ((β × Gen) × Gen) :=
  match f g with
  | none => none
  | some (x, g1) => some ((x, g1), g1)

/-! ## The engine one position deeper -/

theorem scan_append (l : List (Nat × Nat)) (c : Nat × Nat) :
    scan (l ++ [c]) =
      match scan l with
      | some r => some (r ++ [c])
      | none => if c.1 < c.2 then some [(c.1 + 1, c.2)] else none := by
  induction l with
  | nil => simp [scan]
  | cons d l ih =>
    by_cases h : d.1 < d.2
    · simp [scan, h]
    · simp [scan, h, ih]

theorem is_done_push (c : Nat × Nat) (g : Gen) :
    is_done (g.push c) =
      if (is_done g).1 then
        (if c.1 < c.2 then (false, ⟨[(c.1 + 1, c.2)], 0⟩) else (true, g.push c))
      else (false, ⟨c :: (is_done g).2.v, 0⟩) := by
  unfold is_done Gen.push
  simp only [List.reverse_cons, scan_append]
  cases h : scan g.v.reverse with
  | none =>
    by_cases hc : c.1 < c.2 <;> simp [hc]
  | some r => simp

theorem gen_push (c : Nat × Nat) (g : Gen) (b : Nat) :
    gen (g.push c) b =
      match gen g b with
      | none => none
      | some (x, g1) => some (x, g1.push c) := by
  unfold gen Gen.push
  by_cases h : g.p = g.v.length
  · simp [h]
  · simp only [List.length_cons, Nat.add_right_cancel_iff, h, if_false, Nat.add_sub_cancel,
      List.getElem?_cons_succ]
    cases h2 : g.v[g.p]? with
    | none => simp
    | some pr => simp

theorem gen_fresh (b : Nat) : gen Gen.fresh b = some (0, ⟨[(0, b)], 1⟩) := by
  simp [gen, Gen.fresh]

theorem gen_zero_cons (c : Nat × Nat) (t : List (Nat × Nat)) (b : Nat) :
    gen ⟨c :: t, 0⟩ b = some (c.1, Gen.push (c.1, b) ⟨t, 0⟩) := by
  simp [gen, Gen.push]

theorem run_push {α : Type} (B : Body α) (c : Nat × Nat) (g : Gen) :
    B.run (g.push c) =
      match B.run g with
      | none => none
      | some (r, g1) => some (r, g1.push c) := by
  induction B generalizing g with
  | ret a => simp [Body.run]
  | draw b k ih =>
    simp only [Body.run, gen_push]
    cases h : gen g b with
    | none => simp
    | some r =>
      obtain ⟨x, g1⟩ := r
      simp only [ih x g1]
      cases h2 : (k x).run g1 with
      | none => simp
      | some r2 => simp

/-! ## The driver loop -/

theorem loop_mono {β : Type} (body : Gen → Option (β × Gen)) (n m : Nat) (g : Gen)
    (xs : List β) (h : loop body n g = some xs) : loop body (n + m) g = some xs := by
  induction n generalizing g xs with
  | zero => simp [loop] at h
  | succ n ih =>
    rw [Nat.add_right_comm]
    simp only [loop] at h ⊢
    cases hb : body g with
    | none => simp [hb] at h
    | some r =>
      obtain ⟨x, g1⟩ := r
      simp only [hb] at h ⊢
      by_cases hd : (is_done g1).1 = true
      · simpa [hd] using h
      · simp only [hd, if_false, Bool.false_eq_true] at h ⊢
        cases hl : loop body n (is_done g1).2 with
        | none => simp [hl] at h
        | some ys =>
          simp only [hl, Option.map_some'] at h
          simp [ih _ _ hl, h]

theorem loop_mono_le {β : Type} (body : Gen → Option (β × Gen)) (n m : Nat) (g : Gen)
    (xs : List β) (h : loop body n g = some xs) (hnm : n ≤ m) :
    loop body m g = some xs := by
  obtain ⟨d, rfl⟩ := Nat.exists_eq_add_of_le hnm
  exact loop_mono body n d g xs h

theorem loop_start_congr {β : Type} (body : Gen → Option (β × Gen)) (n : Nat) (g g' : Gen)
    (h : body g = body g') : loop body n g = loop body n g' := by
  cases n with
  | zero => rfl
  | succ n => simp only [loop, h]

theorem loop_length_le {β : Type} (body : Gen → Option (β × Gen)) (n : Nat) (g : Gen)
    (xs : List β) (h : loop body n g = some xs) : xs.length ≤ n ∧ 1 ≤ xs.length := by
  induction n generalizing g xs with
  | zero => simp [loop] at h
  | succ n ih =>
    simp only [loop] at h
    cases hb : body g with
    | none => simp [hb] at h
    | some r =>
      obtain ⟨x, g1⟩ := r
      simp only [hb] at h
      by_cases hd : (is_done g1).1 = true
      · simp only [hd, if_true, Option.some.injEq] at h
        subst h
        simp
      · simp only [hd, if_false, Bool.false_eq_true] at h
        cases hl : loop body n (is_done g1).2 with
        | none => simp [hl] at h
        | some ys =>
          simp only [hl, Option.map_some', Option.some.injEq] at h
          subst h
          have := ih _ _ hl
          simp
          omega

theorem loop_map {β γ : Type} (f : Gen → Option (β × Gen)) (f' : Gen → Option (γ × Gen))
    (h : β → γ)
    (hf : ∀ g, f' g = match f g with
      | none => none
      | some (x, g1) => some (h x, g1))
    (n : Nat) (g : Gen) :
    loop f' n g = (loop f n g).map (List.map h) := by
  induction n generalizing g with
  | zero => simp [loop]
  | succ n ih =>
    simp only [loop, hf g]
    cases hb : f g with
    | none => simp
    | some r =>
      obtain ⟨x, g1⟩ := r
      simp only
      by_cases hd : (is_done g1).1 = true
      · simp [hd]
      · simp only [hd, if_false, Bool.false_eq_true, ih]
        cases hl : loop f n (is_done g1).2 with
        | none => simp
        | some ys => simp

theorem is_done_false_eq (g : Gen) (h : (is_done g).1 = false) :
    (is_done g).2 = ⟨(is_done g).2.v, 0⟩ := by
  unfold is_done at h ⊢
  cases hs : scan g.v.reverse with
  | none => simp [hs] at h
  | some r => simp

theorem withEnd_draw_cons {α : Type} (b : Nat) (k : Nat → Body α) (v x : Nat)
    (t : List (Nat × Nat)) :
    withEnd (Body.draw b k).run ⟨(v, x) :: t, 0⟩ =
      match withEnd (k v).run ⟨t, 0⟩ with
      | none => none
      | some (r, g1) => some (liftPass v b r, g1.push (v, b)) := by
  simp only [withEnd, Body.run, gen_zero_cons, run_push]
  cases h : (k v).run ⟨t, 0⟩ with
  | none => simp
  | some r => simp [liftPass]

theorem withEnd_snd {β : Type} (f : Gen → Option (β × Gen)) (g : Gen) (r : β × Gen) (g1 : Gen)
    (h : withEnd f g = some (r, g1)) : r.2 = g1 := by
  unfold withEnd at h
  cases hf : f g with
  | none => simp [hf] at h
  | some y =>
    simp only [hf, Option.some.injEq, Prod.mk.injEq] at h
    rw [← h.1]
    exact h.2

/-- The loop over `draw b k` resumed at value `v` of the first draw: it makes the
passes of the loop over `k v`, each one position deeper, and then goes on at
`v + 1` when `v < b`. -/
theorem loop_draw_step {α : Type} (b : Nat) (k : Nat → Body α) (v : Nat) (m : Nat)
    (ys : List ((List (Nat × Nat) × α) × Gen))
    (hys : if v < b then loop (withEnd (Body.draw b k).run) m ⟨[(v + 1, b)], 0⟩ = some ys
      else ys = []) :
    ∀ (n : Nat) (t : List (Nat × Nat)) (x : Nat) (xs : List ((List (Nat × Nat) × α) × Gen)),
      loop (withEnd (k v).run) n ⟨t, 0⟩ = some xs →
      loop (withEnd (Body.draw b k).run) (n + m) ⟨(v, x) :: t, 0⟩
        = some (xs.map (liftPass v b) ++ ys) := by
  intro n
  induction n with
  | zero => intro t x xs h; simp [loop] at h
  | succ n ih =>
    intro t x xs h
    rw [Nat.add_right_comm]
    simp only [loop, withEnd_draw_cons] at h ⊢
    cases hb : withEnd (k v).run ⟨t, 0⟩ with
    | none => simp [hb] at h
    | some r =>
      obtain ⟨r, g1⟩ := r
      have hr : r.2 = g1 := withEnd_snd _ _ _ _ hb
      simp only [hb] at h ⊢
      simp only [is_done_push]
      by_cases hd : (is_done g1).1 = true
      · simp only [hd, if_true, Option.some.injEq] at h
        subst h
        simp only [hd, if_true]
        by_cases hv : v < b
        · simp only [hv, if_true] at hys
          have := loop_mono _ m n _ _ hys
          rw [Nat.add_comm] at this
          simp [hv, this]
        · simp only [hv, if_false] at hys
          simp [hv, hys]
      · simp only [hd, if_false, Bool.false_eq_true] at h ⊢
        cases hl : loop (withEnd (k v).run) n (is_done g1).2 with
        | none => simp [hl] at h
        | some zs =>
          simp only [hl, Option.map_some', Option.some.injEq] at h
          subst h
          have hd' : (is_done g1).1 = false := by simpa using hd
          rw [is_done_false_eq g1 hd'] at hl
          have := ih (is_done g1).2.v b zs hl
          simp [this]

theorem liftPass_leafEnd {α : Type} (x b : Nat) (l : List (Nat × Nat) × α) :
    liftPass x b (leafEnd l) = leafEnd ((x, b) :: l.1, l.2) := by
  simp [liftPass, leafEnd, Gen.push]

theorem loop_draw_from {α : Type} (b : Nat) (k : Nat → Body α)
    (ih : ∀ x, loop (withEnd (k x).run) (k x).leaves.length Gen.fresh
      = some ((k x).leaves.map leafEnd)) :
    ∀ (c v : Nat), v + c = b →
      loop (withEnd (Body.draw b k).run)
          ((List.range' v (c + 1)).flatMap
            (fun x => ((k x).leaves).map (fun l => ((x, b) :: l.1, l.2)))).length
          ⟨[(v, b)], 0⟩
        = some (((List.range' v (c + 1)).flatMap
            (fun x => ((k x).leaves).map (fun l => ((x, b) :: l.1, l.2)))).map leafEnd) := by
  intro c
  induction c with
  | zero =>
    intro v hv
    have hvb : v = b := by omega
    subst hvb
    have := loop_draw_step v k v 0 [] (by simp) _ [] v _ (ih v)
    simpa [List.range', Function.comp_def, liftPass_leafEnd] using this
  | succ c ihc =>
    intro v hv
    have hvb : v < b := by omega
    have h1 := ihc (v + 1) (by omega)
    have := loop_draw_step b k v _ _ (by simpa [hvb] using h1) _ [] b _ (ih v)
    rw [List.range'_succ]
    simpa [Function.comp_def, liftPass_leafEnd] using this

/-- The loop on a fresh engine makes exactly one pass per leaf of the decision
tree, in depth-first order; each pass draws the values of its leaf under the
bounds of its leaf, and leaves the trace equal to that `(value, bound)` list with
the cursor at its end. -/
theorem loop_leaves {α : Type} (B : Body α) :
    loop (withEnd B.run) B.leaves.length Gen.fresh = some (B.leaves.map leafEnd) := by
  induction B with
  | ret a => simp [loop, withEnd, Body.run, Body.leaves, leafEnd, is_done, Gen.fresh, scan]
  | draw b k ih =>
    have h := loop_draw_from b k ih b 0 (by omega)
    rw [loop_start_congr _ _ Gen.fresh ⟨[(0, b)], 0⟩]
    · simpa [Body.leaves, List.range_eq_range'] using h
    · show withEnd (Body.draw b k).run Gen.fresh = withEnd (Body.draw b k).run ⟨[(0, b)], 0⟩
      unfold withEnd
      rw [Body.run, Body.run, gen_fresh, gen_zero_cons]
      rfl

/-- The loop over a body on a fresh engine returns the leaves of its tree. -/
theorem loop_run {α : Type} (B : Body α) :
    loop B.run B.leaves.length Gen.fresh = some B.leaves := by
  have h := loop_map (withEnd B.run) B.run Prod.fst
    (by
      intro g
      unfold withEnd
      cases hb : B.run g with
      | none => simp
      | some r => simp)
    B.leaves.length Gen.fresh
  rw [h, loop_leaves]
  simp [Function.comp_def, leafEnd]

/-! ## The leaves of a decision tree -/

theorem paths_draw {α : Type} (b : Nat) (k : Nat → Body α) :
    (Body.draw b k).paths =
      (List.range (b + 1)).flatMap (fun x => (k x).paths.map (fun vs => x :: vs)) := by
  simp [Body.paths, Body.leaves, List.map_flatMap, Function.comp_def]

theorem isLeaf_iff_mem_paths {α : Type} (B : Body α) (vs : List Nat) :
    B.isLeaf vs = true ↔ vs ∈ B.paths := by
  induction B generalizing vs with
  | ret a => cases vs <;> simp [Body.isLeaf, Body.paths, Body.leaves]
  | draw b k ih =>
    rw [paths_draw]
    cases vs with
    | nil => simp [Body.isLeaf]
    | cons x vs =>
      simp only [Body.isLeaf, Bool.and_eq_true, decide_eq_true_eq, ih, List.mem_flatMap,
        List.mem_range, List.mem_map, List.cons.injEq]
      constructor
      · rintro ⟨hx, hv⟩
        exact ⟨x, by omega, vs, hv, rfl, rfl⟩
      · rintro ⟨y, hy, ws, hw, rfl, rfl⟩
        exact ⟨by omega, hw⟩

theorem paths_nodup {α : Type} (B : Body α) : B.paths.Nodup := by
  induction B with
  | ret a => simp [Body.paths, Body.leaves]
  | draw b k ih =>
    rw [paths_draw, List.nodup_flatMap]
    refine ⟨fun x _ => (ih x).map (fun a c h => by simpa using h), ?_⟩
    refine (List.nodup_range (b + 1)).imp ?_
    intro x y hxy
    simp only [Function.onFun, List.Disjoint, List.mem_map]
    rintro vs ⟨a, _, rfl⟩ ⟨c, _, hc⟩
    simp only [List.cons.injEq] at hc
    exact hxy hc.1.symm

theorem leaves_within_bounds {α : Type} (B : Body α) :
    ∀ l ∈ B.leaves, ∀ c ∈ l.1, c.1 ≤ c.2 := by
  induction B with
  | ret a => simp [Body.leaves]
  | draw b k ih =>
    intro l hl c hc
    simp only [Body.leaves, List.mem_flatMap, List.mem_range, List.mem_map] at hl
    obtain ⟨x, hx, l', hl', rfl⟩ := hl
    simp only [List.mem_cons] at hc
    rcases hc with rfl | hc
    · simp only; omega
    · exact ih x l' hl' c hc

theorem leaves_length_pos {α : Type} (B : Body α) : 1 ≤ B.leaves.length := by
  induction B with
  | ret a => simp [Body.leaves]
  | draw b k ih =>
    simp only [Body.leaves, List.range_succ_eq_map, List.flatMap_cons, List.length_append,
      List.length_map]
    have := ih 0
    omega

theorem countP_eq_one_of_nodup {γ : Type} [DecidableEq γ] (l : List γ) (a : γ)
    (hn : l.Nodup) (ha : a ∈ l) : l.countP (fun x => decide (x = a)) = 1 := by
  induction l with
  | nil => simp at ha
  | cons y l ih =>
    rw [List.nodup_cons] at hn
    rw [List.countP_cons]
    by_cases hy : y = a
    · subst hy
      have : l.countP (fun x => decide (x = y)) = 0 := by
        rw [List.countP_eq_zero]
        intro x hx
        simp only [decide_eq_true_eq]
        rintro rfl
        exact hn.1 hx
      simp [this]
    · have ha' : a ∈ l := by
        rcases List.mem_cons.1 ha with h | h
        · exact absurd h.symm hy
        · exact h
      simp [hy, ih hn.2 ha']

/-! ## The contract of the driven loop -/

/-- C1: for every deterministic body and every leaf `vs` of its decision tree (each
value at most the bound requested at its position, no draw after the last), the
do-while loop on a fresh engine terminates, and exactly one of its passes has `gen`
calls returning exactly `vs`. -/
theorem loop_visits_every_leaf_once {α : Type} (B : Body α) (vs : List Nat)
    (h : B.isLeaf vs = true) :
    ∃ (n : Nat) (passes : List (List (Nat × Nat) × α)),
      (∀ m, n ≤ m → loop B.run m Gen.fresh = some passes) ∧
      passes.countP (fun r => decide (drawn r = vs)) = 1 := by
  refine ⟨B.leaves.length, B.leaves, fun m hm => loop_mono_le _ _ _ _ _ (loop_run B) hm, ?_⟩
  have := countP_eq_one_of_nodup B.paths vs (paths_nodup B) ((isLeaf_iff_mem_paths B vs).1 h)
  rw [Body.paths, List.countP_map] at this
  exact this

/-- C2: for every deterministic body the do-while loop on a fresh engine terminates:
there is a number of passes, at least one, after which `is_done` has returned `true`,
and no pass throws. -/
theorem loop_terminates {α : Type} (B : Body α) :
    ∃ (n : Nat) (passes : List (List (Nat × Nat) × α)),
      loop B.run n Gen.fresh = some passes ∧ passes.length = n ∧
      ∀ m, n ≤ m → loop B.run m Gen.fresh = some passes :=
  ⟨B.leaves.length, B.leaves, loop_run B, rfl,
    fun _ hm => loop_mono_le _ _ _ _ _ (loop_run B) hm⟩

/-! ## The odometer step -/

theorem scan_skip (l1 l2 : List (Nat × Nat)) (h : ∀ d ∈ l1, ¬ d.1 < d.2) :
    scan (l1 ++ l2) = scan l2 := by
  induction l1 with
  | nil => rfl
  | cons d l1 ih =>
    have hd : ¬ d.1 < d.2 := h d (by simp)
    simp only [List.cons_append, scan, hd, if_false]
    exact ih (fun e he => h e (by simp [he]))

theorem scan_eq_none_iff (l : List (Nat × Nat)) : scan l = none ↔ ∀ d ∈ l, ¬ d.1 < d.2 := by
  induction l with
  | nil => simp [scan]
  | cons d l ih =>
    by_cases hd : d.1 < d.2
    · simp only [scan, hd, if_true]
      constructor
      · intro h; simp at h
      · intro h; exact absurd hd (h d (by simp))
    · simp only [scan, hd, if_false, ih, List.mem_cons]
      constructor
      · rintro h e (rfl | he)
        · exact hd
        · exact h e he
      · intro h e he
        exact h e (Or.inr he)

theorem is_done_true_iff (g : Gen) : (is_done g).1 = true ↔ ∀ c ∈ g.v, ¬ c.1 < c.2 := by
  unfold is_done
  cases hs : scan g.v.reverse with
  | none =>
    have := (scan_eq_none_iff g.v.reverse).1 hs
    simp only [List.mem_reverse] at this
    simpa using this
  | some r =>
    have : ¬ ∀ d ∈ g.v.reverse, ¬ d.1 < d.2 := by
      rw [← scan_eq_none_iff, hs]; simp
    simp only [List.mem_reverse] at this
    simpa using this

theorem is_done_true_unchanged (g : Gen) (h : (is_done g).1 = true) : (is_done g).2 = g := by
  unfold is_done at h ⊢
  cases hs : scan g.v.reverse with
  | none => rfl
  | some r => simp [hs] at h

theorem is_done_split (pre post : List (Nat × Nat)) (c : Nat × Nat) (p : Nat)
    (hc : c.1 < c.2) (hpost : ∀ d ∈ post, ¬ d.1 < d.2) :
    is_done ⟨pre ++ c :: post, p⟩ = (false, ⟨pre ++ [(c.1 + 1, c.2)], 0⟩) := by
  unfold is_done
  have h1 : (pre ++ c :: post).reverse = post.reverse ++ c :: pre.reverse := by simp
  simp only [h1]
  rw [scan_skip _ _ (by simpa using hpost)]
  simp [scan, hc]

/-- C4: the odometer step.  When `i` is the greatest index of a counter with
`current < bound`, `is_done` returns `false`, the new trace is the first `i`
counters unchanged followed by `(current_i + 1, bound_i)` (so its length is
`i + 1`), and the cursor is 0. -/
theorem is_done_odometer (g : Gen) (i : Nat) (c : Nat × Nat)
    (hi : g.v[i]? = some c) (hc : c.1 < c.2)
    (hmax : ∀ (j : Nat) (d : Nat × Nat), i < j → g.v[j]? = some d → ¬ d.1 < d.2) :
    is_done g = (false, ⟨g.v.take i ++ [(c.1 + 1, c.2)], 0⟩) ∧
      (is_done g).2.v.length = i + 1 ∧
      (∀ j, j < i → (is_done g).2.v[j]? = g.v[j]?) ∧
      (is_done g).2.v[i]? = some (c.1 + 1, c.2) ∧
      (is_done g).2.p = 0 := by
  have hlt : i < g.v.length := by
    rcases Nat.lt_or_ge i g.v.length with h | h
    · exact h
    · rw [List.getElem?_eq_none h] at hi; simp at hi
  have hci : g.v[i] = c := by
    rw [List.getElem?_eq_getElem hlt] at hi
    simpa using hi
  have hsplit : g.v = g.v.take i ++ c :: g.v.drop (i + 1) := by
    rw [← hci, ← List.drop_eq_getElem_cons hlt, List.take_append_drop]
  have hpost : ∀ d ∈ g.v.drop (i + 1), ¬ d.1 < d.2 := by
    intro d hd
    obtain ⟨j, hj, rfl⟩ := List.getElem_of_mem hd
    have hj' : i + 1 + j < g.v.length := by
      rw [List.length_drop] at hj; omega
    apply hmax (i + 1 + j) _ (by omega)
    rw [List.getElem_drop, List.getElem?_eq_getElem hj']
  have hmain : is_done g = (false, ⟨g.v.take i ++ [(c.1 + 1, c.2)], 0⟩) := by
    have := is_done_split (g.v.take i) (g.v.drop (i + 1)) c g.p hc hpost
    rw [← hsplit] at this
    exact this
  have hlen : (g.v.take i).length = i := by
    rw [List.length_take]; omega
  rw [hmain]
  refine ⟨rfl, by simp [hlen], ?_, ?_, rfl⟩
  · intro j hj
    simp only
    rw [List.getElem?_append_left (by omega), List.getElem?_take_of_lt hj]
  · simp only
    rw [List.getElem?_append_right (by omega)]
    simp [hlen]

theorem scan_eq_some (l r : List (Nat × Nat)) (h : scan l = some r) :
    ∃ l1 c l2, l = l1 ++ c :: l2 ∧ (∀ d ∈ l1, ¬ d.1 < d.2) ∧ c.1 < c.2 ∧
      r = (c.1 + 1, c.2) :: l2 := by
  induction l with
  | nil => simp [scan] at h
  | cons d l ih =>
    by_cases hd : d.1 < d.2
    · simp only [scan, hd, if_true, Option.some.injEq] at h
      exact ⟨[], d, l, rfl, by simp, hd, h.symm⟩
    · simp only [scan, hd, if_false] at h
      obtain ⟨l1, c, l2, rfl, h1, hc, hr⟩ := ih h
      refine ⟨d :: l1, c, l2, rfl, ?_, hc, hr⟩
      intro e he
      rcases List.mem_cons.1 he with rfl | he
      · exact hd
      · exact h1 e he

/-- C5, as the code has it: `is_done` returns `true` exactly when no counter has
`current < bound`, which for a trace with every `current <= bound` is exactly when
every counter has `current = bound`; it returns `true` on the empty trace; and it
returns `false` exactly when an increment occurred. -/
theorem is_done_exhaustion_iff (g : Gen) :
    ((is_done g).1 = true ↔ ∀ c ∈ g.v, c.2 ≤ c.1) ∧
    ((∀ c ∈ g.v, c.1 ≤ c.2) → ((is_done g).1 = true ↔ ∀ c ∈ g.v, c.1 = c.2)) ∧
    (g.v = [] → (is_done g).1 = true) ∧
    ((is_done g).1 = false ↔
      ∃ (i : Nat) (c : Nat × Nat), g.v[i]? = some c ∧ c.1 < c.2 ∧
        (is_done g).2.v = g.v.take i ++ [(c.1 + 1, c.2)]) := by
  have hiff := is_done_true_iff g
  refine ⟨?_, ?_, ?_, ?_⟩
  · rw [hiff]
    exact ⟨fun h c hc => Nat.le_of_not_lt (h c hc), fun h c hc => Nat.not_lt.2 (h c hc)⟩
  · intro hle
    rw [hiff]
    constructor
    · intro h c hc
      have h1 := h c hc
      have h2 := hle c hc
      omega
    · intro h c hc
      have h1 := h c hc
      omega
  · intro hnil
    rw [hiff, hnil]
    simp
  · constructor
    · intro hf
      unfold is_done at hf ⊢
      cases hs : scan g.v.reverse with
      | none => simp [hs] at hf
      | some r =>
        obtain ⟨l1, c, l2, hl, _, hc, hr⟩ := scan_eq_some _ _ hs
        have hv : g.v = l2.reverse ++ c :: l1.reverse := by
          have := congrArg List.reverse hl
          simpa using this
        refine ⟨l2.length, c, ?_, hc, ?_⟩
        · rw [hv, List.getElem?_append_right (by simp)]
          simp
        · simp only [hr, List.reverse_cons]
          rw [hv, List.take_left']
          simp
    · rintro ⟨i, c, hi, hc, _⟩
      cases hd : (is_done g).1 with
      | false => rfl
      | true =>
        have := hiff.1 hd c (List.getElem?_mem hi)
        exact absurd hc this

/-- C5 as stated fails: after `gen(1)`, `is_done()`, `gen(0)` on a fresh engine the
trace is `[(1, 0)]`; `is_done` returns `true` there although the counter has
`current = 1` and `bound = 0`. -/
theorem is_done_true_without_equality :
    (gen Gen.fresh 1).map Prod.snd = some ⟨[(0, 1)], 1⟩ ∧
    is_done ⟨[(0, 1)], 1⟩ = (false, ⟨[(1, 1)], 0⟩) ∧
    gen ⟨[(1, 1)], 0⟩ 0 = some (1, ⟨[(1, 0)], 1⟩) ∧
    ¬ ((is_done ⟨[(1, 0)], 1⟩).1 = true ↔
        ∀ c ∈ (⟨[(1, 0)], 1⟩ : Gen).v, c.1 = c.2) := by
  decide

/-- C6: when `is_done` returns `true` it leaves the trace and the cursor unchanged,
and every further `is_done` call with no `gen` call in between returns `true`. -/
theorem is_done_stable (g : Gen) (h : (is_done g).1 = true) :
    (is_done g).2 = g ∧
      ∀ n : Nat, (is_done (Nat.iterate (fun s => (is_done s).2) n g)).1 = true := by
  have hg := is_done_true_unchanged g h
  refine ⟨hg, ?_⟩
  intro n
  have : Nat.iterate (fun s => (is_done s).2) n g = g := by
    induction n with
    | zero => rfl
    | succ n ih => rw [Function.iterate_succ_apply', ih, hg]
  rw [this]
  exact h

/-- C6 on the exhausted trace `[(2, 2), (1, 1)]` with the cursor at its end. -/
theorem is_done_stable_witness :
    (is_done ⟨[(2, 2), (1, 1)], 2⟩).1 = true ∧
    ((is_done ⟨[(2, 2), (1, 1)], 2⟩).2 = ⟨[(2, 2), (1, 1)], 2⟩ ∧
      ∀ n : Nat,
        (is_done (Nat.iterate (fun s => (is_done s).2) n ⟨[(2, 2), (1, 1)], 2⟩)).1 = true) :=
  ⟨by decide, is_done_stable ⟨[(2, 2), (1, 1)], 2⟩ (by decide)⟩

/-- C4 on the trace `[(0, 1), (1, 2), (3, 3)]`: the counter at index 1 is the last one
below its bound. -/
theorem is_done_odometer_witness :
    is_done ⟨[(0, 1), (1, 2), (3, 3)], 3⟩ = (false, ⟨[(0, 1), (2, 2)], 0⟩) :=
  (is_done_odometer ⟨[(0, 1), (1, 2), (3, 3)], 3⟩ 1 (1, 2) rfl (by decide)
    (by
      intro j d hj hd
      match j, hj with
      | 2, _ =>
        simp only [List.getElem?_cons_succ, List.getElem?_cons_zero, Option.some.injEq] at hd
        subst hd
        decide
      | j + 3, _ => simp at hd)).1

/-- C1 on `demoTree` and its leaf `[1, 2]`. -/
theorem loop_visits_every_leaf_once_witness :
    demoTree.isLeaf [1, 2] = true ∧
    ∃ (n : Nat) (passes : List (List (Nat × Nat) × Nat)),
      (∀ m, n ≤ m → loop demoTree.run m Gen.fresh = some passes) ∧
      passes.countP (fun r => decide (drawn r = [1, 2])) = 1 :=
  ⟨by decide, loop_visits_every_leaf_once demoTree [1, 2] (by decide)⟩

/-! ## The combinators as decision trees -/

theorem eval_ret {α : Type} (a : α) (g : Gen) : (Body.ret a).eval g = some (a, g) := rfl

theorem eval_draw {α : Type} (b : Nat) (k : Nat → Body α) (g : Gen) :
    (Body.draw b k).eval g =
      match gen g b with
      | none => none
      | some (x, g1) => (k x).eval g1 := by
  simp only [Body.eval, Body.run]
  cases h : gen g b with
  | none => rfl
  | some r =>
    obtain ⟨x, g1⟩ := r
    simp only
    cases h2 : (k x).run g1 with
    | none => rfl
    | some r2 => rfl

theorem evalOpt_ret {α : Type} (a : Option α) (g : Gen) :
    (Body.ret a).evalOpt g =
      match a with
      | none => none
      | some y => some (y, g) := rfl

theorem evalOpt_draw {α : Type} (b : Nat) (k : Nat → Body (Option α)) (g : Gen) :
    (Body.draw b k).evalOpt g =
      match gen g b with
      | none => none
      | some (x, g1) => (k x).evalOpt g1 := by
  simp only [Body.evalOpt, Body.run]
  cases h : gen g b with
  | none => rfl
  | some r =>
    obtain ⟨x, g1⟩ := r
    simp only
    cases h2 : (k x).run g1 with
    | none => rfl
    | some r2 => rfl

theorem body_gen_eq (n : Nat) (g : Gen) : body_gen n g = (body_gen_tree n).eval g := by
  simp only [body_gen, body_gen_tree, eval_draw, eval_ret]
  cases h : gen g n with
  | none => rfl
  | some r => rfl

theorem body_gen2_eq (a b : Nat) (g : Gen) :
    body_gen2 a b g = (body_gen2_tree a b).eval g := by
  simp only [body_gen2, body_gen2_tree, eval_draw, eval_ret]

theorem gen_vec_fill_eq (e n : Nat) (r : List Nat) (g : Gen) :
    gen_vec_fill e n r g = (gen_vec_fill_tree e n r).eval g := by
  induction n generalizing r g with
  | zero => rfl
  | succ n ih =>
    simp only [gen_vec_fill, gen_vec_fill_tree, eval_draw]
    cases h : gen g e with
    | none => rfl
    | some p => exact ih _ _

theorem gen_vec_eq (l e : Nat) (g : Gen) : gen_vec l e g = (gen_vec_tree l e).eval g := by
  simp only [gen_vec, gen_vec_tree, eval_draw]
  cases h : gen g l with
  | none => rfl
  | some p => exact gen_vec_fill_eq _ _ _ _

theorem gen_comb_loop_eq {T : Type} (inp : List T) (sz k : Nat) (r : List T) (g : Gen) :
    gen_comb_loop inp sz k r g = (gen_comb_loop_tree inp sz k r).evalOpt g := by
  induction k generalizing r g with
  | zero => rfl
  | succ k ih =>
    simp only [gen_comb_loop, gen_comb_loop_tree, evalOpt_draw]
    cases h : gen g (sz - 1) with
    | none => rfl
    | some p =>
      obtain ⟨i, g1⟩ := p
      simp only
      cases h2 : inp[i]? with
      | none => rfl
      | some x => exact ih _ _

theorem gen_comb_eq {T : Type} (inp : List T) (g : Gen) :
    gen_comb inp g = (gen_comb_tree inp).evalOpt g := by
  unfold gen_comb gen_comb_tree
  by_cases hsz : inp.length > 0
  · simp only [hsz, if_true, evalOpt_draw]
    cases h : gen g inp.length with
    | none => rfl
    | some p => exact gen_comb_loop_eq _ _ _ _ _
  · simp only [hsz, if_false]
    rfl

theorem gen_perm_loop_eq {T : Type} (inp : List T) (fuel : Nat) (idxs : List Nat)
    (r : List T) (g : Gen) :
    gen_perm_loop inp fuel idxs r g = (gen_perm_loop_tree inp fuel idxs r).evalOpt g := by
  induction fuel generalizing idxs r g with
  | zero =>
    cases idxs with
    | nil => rfl
    | cons i0 is => rfl
  | succ fuel ih =>
    cases idxs with
    | nil => rfl
    | cons i0 is =>
      simp only [gen_perm_loop, gen_perm_loop_tree, evalOpt_draw]
      cases h : gen g ((i0 :: is).length - 1) with
      | none => rfl
      | some p =>
        obtain ⟨j, g1⟩ := p
        simp only
        cases h2 : (i0 :: is)[j]? with
        | none => rfl
        | some ix =>
          simp only
          cases h3 : inp[ix]? with
          | none => rfl
          | some x => exact ih _ _ _

theorem gen_perm_eq {T : Type} (inp : List T) (g : Gen) :
    gen_perm inp g = (gen_perm_tree inp).evalOpt g := by
  unfold gen_perm gen_perm_tree
  by_cases hsz : inp.length > 0
  · simp only [hsz, if_true]
    exact gen_perm_loop_eq _ _ _ _ _
  · simp only [hsz, if_false]
    rfl

theorem gen_subset_loop_eq {T : Type} (inp r : List T) (g : Gen) :
    gen_subset_loop inp r g = (gen_subset_loop_tree inp r).eval g := by
  induction inp generalizing r g with
  | nil => rfl
  | cons i rest ih =>
    simp only [gen_subset_loop, gen_subset_loop_tree, eval_draw, flip]
    cases h : gen g 1 with
    | none => rfl
    | some p => exact ih _ _

theorem gen_subset_eq {T : Type} (inp : List T) (g : Gen) :
    gen_subset inp g = (gen_subset_tree inp).eval g :=
  gen_subset_loop_eq inp [] g

/-! ## Loops over the combinators -/

theorem loop_at_length {β : Type} (body : Gen → Option (β × Gen)) (n : Nat) (g : Gen)
    (xs : List β) (h : loop body n g = some xs) : loop body xs.length g = some xs := by
  induction n generalizing g xs with
  | zero => simp [loop] at h
  | succ n ih =>
    simp only [loop] at h
    cases hb : body g with
    | none => simp [hb] at h
    | some r =>
      obtain ⟨x, g1⟩ := r
      simp only [hb] at h
      by_cases hd : (is_done g1).1 = true
      · simp only [hd, if_true, Option.some.injEq] at h
        subst h
        simp [loop, hb, hd]
      · simp only [hd, if_false, Bool.false_eq_true] at h
        cases hl : loop body n (is_done g1).2 with
        | none => simp [hl] at h
        | some ys =>
          simp only [hl, Option.map_some', Option.some.injEq] at h
          subst h
          simp [loop, hb, hd, ih _ _ hl]

/-- The number of passes is exact: with fewer passes allowed than the loop makes it
has not finished, with at least as many it returns the same list. -/
theorem loop_exact {β : Type} (body : Gen → Option (β × Gen)) (n : Nat) (g : Gen)
    (xs : List β) (h : loop body n g = some xs) (m : Nat) :
    loop body m g = if m < xs.length then none else some xs := by
  by_cases hm : m < xs.length
  · simp only [hm, if_true]
    cases hl : loop body m g with
    | none => rfl
    | some ys =>
      have h1 := loop_mono_le body m (max m n) g ys hl (le_max_left _ _)
      have h2 := loop_mono_le body n (max m n) g xs h (le_max_right _ _)
      rw [h1] at h2
      simp only [Option.some.injEq] at h2
      subst h2
      have := (loop_length_le body m g ys hl).1
      omega
  · simp only [hm, if_false]
    exact loop_mono_le body _ m g xs (loop_at_length body n g xs h) (by omega)

theorem loop_eval {α : Type} (B : Body α) :
    loop B.eval B.leaves.length Gen.fresh = some (B.leaves.map Prod.snd) := by
  have h := loop_map B.run B.eval Prod.snd
    (by
      intro g
      unfold Body.eval
      cases hb : B.run g with
      | none => rfl
      | some r => rfl)
    B.leaves.length Gen.fresh
  rw [h, loop_run]
  rfl

theorem loop_evalOpt {α : Type} (B : Body (Option α)) (n : Nat) (g : Gen)
    (xs : List (List (Nat × Nat) × Option α)) (ys : List α)
    (h : loop B.run n g = some xs) (hy : xs.map Prod.snd = ys.map some) :
    loop B.evalOpt n g = some ys := by
  induction n generalizing g xs ys with
  | zero => simp [loop] at h
  | succ n ih =>
    simp only [loop, Body.evalOpt] at h ⊢
    cases hb : B.run g with
    | none => simp [hb] at h
    | some r =>
      obtain ⟨x, g1⟩ := r
      simp only [hb] at h ⊢
      by_cases hd : (is_done g1).1 = true
      · simp only [hd, if_true, Option.some.injEq] at h
        subst h
        cases ys with
        | nil => simp at hy
        | cons y ys =>
          simp only [List.map_cons, List.map_nil, List.cons.injEq, List.nil_eq,
            List.map_eq_nil_iff] at hy
          simp [hy.1, hy.2, hd]
      · simp only [hd, if_false, Bool.false_eq_true] at h
        cases hl : loop B.run n (is_done g1).2 with
        | none => simp [hl] at h
        | some zs =>
          simp only [hl, Option.map_some', Option.some.injEq] at h
          subst h
          cases ys with
          | nil => simp at hy
          | cons y ys =>
            simp only [List.map_cons, List.cons.injEq] at hy
            simp [hy.1, hd, ih _ _ _ hl hy.2]

theorem exists_map_some {β γ : Type} (h : β → Option γ) (xs : List β)
    (hx : ∀ x ∈ xs, ∃ y, h x = some y) : ∃ ys : List γ, xs.map h = ys.map some := by
  induction xs with
  | nil => exact ⟨[], rfl⟩
  | cons x xs ih =>
    obtain ⟨y, hy⟩ := hx x (by simp)
    obtain ⟨ys, hys⟩ := ih (fun z hz => hx z (by simp [hz]))
    exact ⟨y :: ys, by simp [hy, hys]⟩

theorem gen_comb_loop_tree_some {T : Type} (inp : List T) (hpos : 0 < inp.length)
    (k : Nat) (r : List T) :
    ∀ l ∈ (gen_comb_loop_tree inp inp.length k r).leaves, ∃ y, l.2 = some y := by
  induction k generalizing r with
  | zero => simp [gen_comb_loop_tree, Body.leaves]
  | succ k ih =>
    intro l hl
    simp only [gen_comb_loop_tree, Body.leaves, List.mem_flatMap, List.mem_range,
      List.mem_map] at hl
    obtain ⟨i, hi, l', hl', rfl⟩ := hl
    have hi' : i < inp.length := by omega
    rw [List.getElem?_eq_getElem hi'] at hl'
    exact ih _ l' hl'

theorem gen_comb_tree_some {T : Type} (inp : List T) :
    ∀ l ∈ (gen_comb_tree inp).leaves, ∃ y, l.2 = some y := by
  unfold gen_comb_tree
  by_cases hsz : inp.length > 0
  · simp only [hsz, if_true]
    intro l hl
    simp only [Body.leaves, List.mem_flatMap, List.mem_range, List.mem_map] at hl
    obtain ⟨n, _, l', hl', rfl⟩ := hl
    exact gen_comb_loop_tree_some inp hsz n [] l' hl'
  · simp [hsz, Body.leaves]

theorem gen_perm_loop_tree_some {T : Type} (inp : List T) (fuel : Nat) (idxs : List Nat)
    (r : List T) (hfuel : idxs.length ≤ fuel) (hidx : ∀ ix ∈ idxs, ix < inp.length) :
    ∀ l ∈ (gen_perm_loop_tree inp fuel idxs r).leaves, ∃ y, l.2 = some y := by
  induction fuel generalizing idxs r with
  | zero =>
    cases idxs with
    | nil => simp [gen_perm_loop_tree, Body.leaves]
    | cons i0 is => simp at hfuel
  | succ fuel ih =>
    cases idxs with
    | nil => simp [gen_perm_loop_tree, Body.leaves]
    | cons i0 is =>
      intro l hl
      simp only [gen_perm_loop_tree, Body.leaves, List.mem_flatMap, List.mem_range,
        List.mem_map] at hl
      obtain ⟨j, hj, l', hl', rfl⟩ := hl
      have hj' : j < (i0 :: is).length := by
        simp only [List.length_cons] at hj ⊢; omega
      rw [List.getElem?_eq_getElem hj'] at hl'
      have hix : (i0 :: is)[j] < inp.length := hidx _ (List.getElem_mem hj')
      simp only [List.getElem?_eq_getElem hix] at hl'
      refine ih ((i0 :: is).eraseIdx j) _ ?_ ?_ l' hl'
      · rw [List.length_eraseIdx]
        simp only [hj', if_true]
        simp only [List.length_cons] at hfuel ⊢
        omega
      · intro ix hix'
        exact hidx ix ((List.eraseIdx_sublist _ _).subset hix')

theorem gen_perm_tree_some {T : Type} (inp : List T) :
    ∀ l ∈ (gen_perm_tree inp).leaves, ∃ y, l.2 = some y := by
  unfold gen_perm_tree
  by_cases hsz : inp.length > 0
  · simp only [hsz, if_true]
    exact gen_perm_loop_tree_some inp _ _ _ (by simp) (by simp)
  · simp [hsz, Body.leaves]

/-- C3: in every pass of the do-while loop over a deterministic body every `gen`
call returns a value at most the bound it was given; and the loops over `gen_comb`
and over `gen_perm` finish without any pass failing, that is with every
`in.at(..)` index and every iterator offset in range. -/
theorem gen_within_bound {α T : Type} (B : Body α) (inp : List T) :
    (∃ (n : Nat) (passes : List (List (Nat × Nat) × α)),
      loop B.run n Gen.fresh = some passes ∧
      ∀ r ∈ passes, ∀ c ∈ r.1, 0 ≤ c.1 ∧ c.1 ≤ c.2) ∧
    (∃ (n : Nat) (outs : List (List T)), loop (gen_comb inp) n Gen.fresh = some outs) ∧
    (∃ (n : Nat) (outs : List (List T)), loop (gen_perm inp) n Gen.fresh = some outs) := by
  refine ⟨⟨_, _, loop_run B, fun r hr c hc => ⟨Nat.zero_le _, leaves_within_bounds B r hr c hc⟩⟩,
    ?_, ?_⟩
  · obtain ⟨ys, hys⟩ := exists_map_some Prod.snd _ (gen_comb_tree_some inp)
    refine ⟨(gen_comb_tree inp).leaves.length, ys, ?_⟩
    rw [funext (gen_comb_eq inp)]
    exact loop_evalOpt _ _ _ _ _ (loop_run _) hys
  · obtain ⟨ys, hys⟩ := exists_map_some Prod.snd _ (gen_perm_tree_some inp)
    refine ⟨(gen_perm_tree inp).leaves.length, ys, ?_⟩
    rw [funext (gen_perm_eq inp)]
    exact loop_evalOpt _ _ _ _ _ (loop_run _) hys

theorem flatMap_single {β γ : Type} (l : List β) (f : β → γ) :
    l.flatMap (fun x => [f x]) = l.map f := by
  induction l with
  | nil => rfl
  | cons x l ih => simp [List.flatMap_cons, ih]

theorem body_gen_tree_leaves (n : Nat) :
    (body_gen_tree n).leaves.map Prod.snd = List.range (n + 1) ∧
      (body_gen_tree n).leaves.length = n + 1 := by
  have h : (body_gen_tree n).leaves = (List.range (n + 1)).map (fun x => ([(x, n)], x)) := by
    simp only [body_gen_tree, Body.leaves, List.map_cons, List.map_nil]
    exact flatMap_single _ _
  rw [h]
  simp [Function.comp_def]

/-- C7: the loop whose body is the single call `gen(n)` makes exactly `n + 1` passes
(with fewer passes allowed it has not finished) and the values returned are
`0, 1, ..., n` in that order. -/
theorem single_gen_loop (n : Nat) :
    loop (body_gen n) (n + 1) Gen.fresh = some (List.range (n + 1)) ∧
    (∀ m, loop (body_gen n) m Gen.fresh =
      if m < n + 1 then none else some (List.range (n + 1))) ∧
    loop (body_gen 0) 1 Gen.fresh = some [0] := by
  have key : ∀ k, loop (body_gen k) (k + 1) Gen.fresh = some (List.range (k + 1)) := by
    intro k
    have h := loop_eval (body_gen_tree k)
    rw [(body_gen_tree_leaves k).1, (body_gen_tree_leaves k).2,
      ← funext (body_gen_eq k)] at h
    exact h
  refine ⟨key n, ?_, key 0⟩
  intro m
  have := loop_exact _ _ _ _ (key n) m
  simpa using this

theorem nestedPairs_leaves (a b : Nat) :
    (body_gen2_tree a b).leaves.map Prod.snd = nestedPairs a b := by
  simp only [body_gen2_tree, Body.leaves, nestedPairs, List.map_cons, List.map_nil,
    flatMap_single, List.map_flatMap, List.map_map, Function.comp_def]

theorem length_flatMap_const {β γ : Type} (l : List β) (f : β → List γ) (c : Nat)
    (h : ∀ x ∈ l, (f x).length = c) : (l.flatMap f).length = l.length * c := by
  induction l with
  | nil => simp
  | cons x l ih =>
    rw [List.flatMap_cons, List.length_append, h x (by simp),
      ih (fun y hy => h y (by simp [hy])), List.length_cons, Nat.succ_mul, Nat.add_comm]

theorem nestedPairs_length (a b : Nat) : (nestedPairs a b).length = (a + 1) * (b + 1) := by
  unfold nestedPairs
  rw [length_flatMap_const _ _ (b + 1) (by simp), List.length_range]

theorem mem_nestedPairs (a b : Nat) (q : Nat × Nat) :
    q ∈ nestedPairs a b ↔ q.1 ≤ a ∧ q.2 ≤ b := by
  obtain ⟨x, y⟩ := q
  simp only [nestedPairs, List.mem_flatMap, List.mem_range, List.mem_map, Prod.mk.injEq]
  constructor
  · rintro ⟨x', hx, y', hy, rfl, rfl⟩
    exact ⟨by omega, by omega⟩
  · rintro ⟨hx, hy⟩
    exact ⟨x, by omega, y, by omega, rfl, rfl⟩

theorem nestedPairs_lex (a b : Nat) :
    (nestedPairs a b).Pairwise (fun q r => q.1 < r.1 ∨ (q.1 = r.1 ∧ q.2 < r.2)) := by
  unfold nestedPairs
  rw [List.pairwise_flatMap]
  constructor
  · intro x _
    rw [List.pairwise_map]
    exact (List.pairwise_lt_range (b + 1)).imp (fun h => Or.inr ⟨rfl, h⟩)
  · refine (List.pairwise_lt_range (a + 1)).imp ?_
    intro x x' hx q hq r hr
    simp only [List.mem_map] at hq hr
    obtain ⟨_, _, rfl⟩ := hq
    obtain ⟨_, _, rfl⟩ := hr
    exact Or.inl hx

theorem nestedPairs_nodup (a b : Nat) : (nestedPairs a b).Nodup := by
  refine (nestedPairs_lex a b).imp ?_
  rintro q r h rfl
  omega

/-- C8: the loop whose body calls `gen(a)` and then `gen(b)` makes exactly
`(a + 1) * (b + 1)` passes and yields the pairs that two nested fixed-bound loops
would, in that order: lexicographically increasing, every pair `(x, y)` with
`x <= a` and `y <= b` exactly once and no other; for `a = 1`, `b = 2` these are
`(0,0), (0,1), (0,2), (1,0), (1,1), (1,2)`. -/
theorem two_gen_loop (a b : Nat) :
    loop (body_gen2 a b) ((a + 1) * (b + 1)) Gen.fresh = some (nestedPairs a b) ∧
    (∀ m, loop (body_gen2 a b) m Gen.fresh =
      if m < (a + 1) * (b + 1) then none else some (nestedPairs a b)) ∧
    (nestedPairs a b).length = (a + 1) * (b + 1) ∧
    (∀ q : Nat × Nat, q ∈ nestedPairs a b ↔ q.1 ≤ a ∧ q.2 ≤ b) ∧
    (∀ x y : Nat, x ≤ a → y ≤ b →
      (nestedPairs a b).countP (fun q => decide (q = (x, y))) = 1) ∧
    (nestedPairs a b).Pairwise (fun q r => q.1 < r.1 ∨ (q.1 = r.1 ∧ q.2 < r.2)) ∧
    loop (body_gen2 1 2) 6 Gen.fresh = some [(0, 0), (0, 1), (0, 2), (1, 0), (1, 1), (1, 2)] := by
  have key : ∀ a b, loop (body_gen2 a b) ((a + 1) * (b + 1)) Gen.fresh
      = some (nestedPairs a b) := by
    intro a b
    have h := loop_eval (body_gen2_tree a b)
    rw [nestedPairs_leaves, ← funext (body_gen2_eq a b)] at h
    have hl : (body_gen2_tree a b).leaves.length = (a + 1) * (b + 1) := by
      rw [← nestedPairs_length, ← nestedPairs_leaves, List.length_map]
    rw [hl] at h
    exact h
  refine ⟨key a b, ?_, nestedPairs_length a b, mem_nestedPairs a b, ?_, nestedPairs_lex a b,
    key 1 2⟩
  · intro m
    have := loop_exact _ _ _ _ (key a b) m
    rw [nestedPairs_length] at this
    exact this
  · intro x y hx hy
    exact countP_eq_one_of_nodup _ _ (nestedPairs_nodup a b)
      ((mem_nestedPairs a b (x, y)).2 ⟨hx, hy⟩)

/-! ## Bounded sequences -/

theorem mem_seqsOfLen (e l : Nat) (s : List Nat) :
    s ∈ seqsOfLen e l ↔ s.length = l ∧ ∀ x ∈ s, x ≤ e := by
  induction l generalizing s with
  | zero =>
    cases s with
    | nil => simp [seqsOfLen]
    | cons x s => simp [seqsOfLen]
  | succ l ih =>
    cases s with
    | nil => simp [seqsOfLen]
    | cons x s =>
      simp only [seqsOfLen, List.mem_flatMap, List.mem_range, List.mem_map, List.cons.injEq,
        List.length_cons, Nat.add_right_cancel_iff, List.mem_cons, forall_eq_or_imp]
      constructor
      · rintro ⟨y, hy, t, ht, rfl, rfl⟩
        have := (ih t).1 ht
        exact ⟨this.1, by omega, this.2⟩
      · rintro ⟨hl, hx, hs⟩
        exact ⟨x, by omega, s, (ih s).2 ⟨hl, hs⟩, rfl, rfl⟩

theorem seqsOfLen_nodup (e l : Nat) : (seqsOfLen e l).Nodup := by
  induction l with
  | zero => simp [seqsOfLen]
  | succ l ih =>
    simp only [seqsOfLen]
    rw [List.nodup_flatMap]
    refine ⟨fun x _ => ih.map (fun a c h => by simpa using h), ?_⟩
    refine (List.nodup_range (e + 1)).imp ?_
    intro x y hxy
    simp only [Function.onFun, List.Disjoint, List.mem_map]
    rintro vs ⟨a, _, rfl⟩ ⟨c, _, hc⟩
    simp only [List.cons.injEq] at hc
    exact hxy hc.1.symm

theorem seqsOfLen_length (e l : Nat) : (seqsOfLen e l).length = (e + 1) ^ l := by
  induction l with
  | zero => simp [seqsOfLen]
  | succ l ih =>
    simp only [seqsOfLen]
    rw [length_flatMap_const _ _ ((e + 1) ^ l) (by simp [ih]), List.length_range, pow_succ,
      Nat.mul_comm]

theorem mem_seqsUpTo (L e : Nat) (s : List Nat) :
    s ∈ seqsUpTo L e ↔ s.length ≤ L ∧ ∀ x ∈ s, x ≤ e := by
  simp only [seqsUpTo, List.mem_flatMap, List.mem_range, mem_seqsOfLen]
  constructor
  · rintro ⟨l, hl, rfl, hs⟩
    exact ⟨by omega, hs⟩
  · rintro ⟨hl, hs⟩
    exact ⟨s.length, by omega, rfl, hs⟩

theorem seqsUpTo_nodup (L e : Nat) : (seqsUpTo L e).Nodup := by
  unfold seqsUpTo
  rw [List.nodup_flatMap]
  refine ⟨fun l _ => seqsOfLen_nodup e l, ?_⟩
  refine (List.nodup_range (L + 1)).imp ?_
  intro x y hxy
  simp only [Function.onFun, List.Disjoint]
  intro s hx hy
  have h1 := ((mem_seqsOfLen e x s).1 hx).1
  have h2 := ((mem_seqsOfLen e y s).1 hy).1
  exact hxy (h1.symm.trans h2)

theorem seqsUpTo_length (L e : Nat) :
    (seqsUpTo L e).length = Finset.sum (Finset.range (L + 1)) (fun l => (e + 1) ^ l) := by
  unfold seqsUpTo
  induction L with
  | zero => simp [seqsOfLen, List.range_succ]
  | succ L ih =>
    rw [List.range_succ, List.flatMap_append, List.length_append, ih,
      Finset.sum_range_succ _ (L + 1)]
    simp [seqsOfLen_length]

theorem seqsOfLen_filter (e l l' : Nat) :
    (seqsOfLen e l').filter (fun t => decide (t.length = l)) =
      if l' = l then seqsOfLen e l' else [] := by
  by_cases h : l' = l
  · simp only [h, if_true]
    rw [List.filter_eq_self]
    intro t ht
    simpa using ((mem_seqsOfLen e l t).1 ht).1
  · simp only [h, if_false]
    rw [List.filter_eq_nil_iff]
    intro t ht
    have := ((mem_seqsOfLen e l' t).1 ht).1
    simp only [decide_eq_true_eq]
    omega

theorem seqsUpTo_filter_length (L e l : Nat) :
    ((seqsUpTo L e).filter (fun t => decide (t.length = l))).length =
      if l ≤ L then (e + 1) ^ l else 0 := by
  unfold seqsUpTo
  induction L with
  | zero =>
    simp only [List.range_succ, List.range_zero, List.nil_append, List.flatMap_cons,
      List.flatMap_nil, List.append_nil, seqsOfLen_filter]
    by_cases h : 0 = l
    · subst h; simp [seqsOfLen]
    · have : ¬ l ≤ 0 := by omega
      simp [h, this]
  | succ L ih =>
    rw [List.range_succ, List.flatMap_append, List.filter_append, List.length_append, ih]
    simp only [List.flatMap_cons, List.flatMap_nil, List.append_nil, seqsOfLen_filter]
    by_cases h : L + 1 = l
    · subst h
      simp [seqsOfLen_length]
    · by_cases h2 : l ≤ L
      · have : l ≤ L + 1 := by omega
        simp [h, h2, this]
      · have : ¬ l ≤ L + 1 := by omega
        simp [h, h2, this]

theorem gen_vec_fill_tree_leaves (e n : Nat) (r : List Nat) :
    (gen_vec_fill_tree e n r).leaves.map Prod.snd = (seqsOfLen e n).map (fun s => r ++ s) := by
  induction n generalizing r with
  | zero => simp [gen_vec_fill_tree, Body.leaves, seqsOfLen]
  | succ n ih =>
    simp only [gen_vec_fill_tree, Body.leaves, seqsOfLen, List.map_flatMap, List.map_map,
      Function.comp_def]
    congr 1
    funext x
    have := ih (r ++ [x])
    simp only [List.map_map, Function.comp_def] at this ⊢
    rw [this]
    simp

theorem gen_vec_tree_leaves (L e : Nat) :
    (gen_vec_tree L e).leaves.map Prod.snd = seqsUpTo L e := by
  simp only [gen_vec_tree, Body.leaves, seqsUpTo, List.map_flatMap, List.map_map,
    Function.comp_def]
  congr 1
  funext n
  have := gen_vec_fill_tree_leaves e n []
  simpa using this

theorem loop_gen_vec (L e : Nat) :
    loop (gen_vec L e) (seqsUpTo L e).length Gen.fresh = some (seqsUpTo L e) := by
  have h := loop_eval (gen_vec_tree L e)
  rw [← funext (gen_vec_eq L e)] at h
  have hl : (gen_vec_tree L e).leaves.length = (seqsUpTo L e).length := by
    rw [← gen_vec_tree_leaves, List.length_map]
  rw [hl, gen_vec_tree_leaves] at h
  exact h

/-- C9: the loop over `gen_vec(len_bound, elt_bound)` produces every sequence of
length `0..len_bound` with all elements in `[0, elt_bound]` exactly once and nothing
else; the number of passes is the sum over `l = 0..len_bound` of
`(elt_bound + 1)^l`, with `(elt_bound + 1)^l` sequences of each length `l`;
`gen_vec(2, 2)` gives 13 sequences (1, 3 and 9 of lengths 0, 1 and 2) and
`gen_vec(3, 3)` gives 85. -/
theorem gen_vec_loop (len_bound elt_bound : Nat) :
    (∃ outs : List (List Nat),
      loop (gen_vec len_bound elt_bound) outs.length Gen.fresh = some outs ∧
      (∀ m, loop (gen_vec len_bound elt_bound) m Gen.fresh =
        if m < outs.length then none else some outs) ∧
      (∀ s : List Nat, s ∈ outs ↔ s.length ≤ len_bound ∧ ∀ x ∈ s, x ≤ elt_bound) ∧
      (∀ s : List Nat, s.length ≤ len_bound → (∀ x ∈ s, x ≤ elt_bound) →
        outs.countP (fun t => decide (t = s)) = 1) ∧
      outs.length =
        Finset.sum (Finset.range (len_bound + 1)) (fun l => (elt_bound + 1) ^ l) ∧
      (∀ l, (outs.filter (fun t => decide (t.length = l))).length =
        if l ≤ len_bound then (elt_bound + 1) ^ l else 0)) ∧
    loop (gen_vec 2 2) 13 Gen.fresh =
      some [[], [0], [1], [2], [0, 0], [0, 1], [0, 2], [1, 0], [1, 1], [1, 2],
        [2, 0], [2, 1], [2, 2]] ∧
    (∃ outs : List (List Nat),
      loop (gen_vec 3 3) 85 Gen.fresh = some outs ∧ outs.length = 85) := by
  refine ⟨⟨seqsUpTo len_bound elt_bound, loop_gen_vec _ _, loop_exact _ _ _ _ (loop_gen_vec _ _),
    mem_seqsUpTo len_bound elt_bound, ?_, seqsUpTo_length len_bound elt_bound,
    seqsUpTo_filter_length len_bound elt_bound⟩, ?_, ?_⟩
  · intro s hl hs
    exact countP_eq_one_of_nodup _ _ (seqsUpTo_nodup _ _) ((mem_seqsUpTo _ _ s).2 ⟨hl, hs⟩)
  · decide
  · have h85 : (seqsUpTo 3 3).length = 85 := by
      rw [seqsUpTo_length]
      decide
    refine ⟨seqsUpTo 3 3, ?_, h85⟩
    rw [← h85]
    exact loop_gen_vec 3 3

/-! ## Subsets -/

theorem mem_allMasks (n : Nat) (m : List Bool) : m ∈ allMasks n ↔ m.length = n := by
  induction n generalizing m with
  | zero =>
    cases m with
    | nil => simp [allMasks]
    | cons f m => simp [allMasks]
  | succ n ih =>
    cases m with
    | nil => simp [allMasks]
    | cons f m =>
      cases f <;> simp [allMasks, ih]

theorem allMasks_nodup (n : Nat) : (allMasks n).Nodup := by
  induction n with
  | zero => simp [allMasks]
  | succ n ih =>
    simp only [allMasks, List.flatMap_cons, List.flatMap_nil, List.append_nil]
    rw [List.nodup_append]
    refine ⟨ih.map (fun a c h => by simpa using h), ih.map (fun a c h => by simpa using h), ?_⟩
    simp only [List.Disjoint, List.mem_map]
    rintro m ⟨a, _, rfl⟩ ⟨c, _, hc⟩
    simp at hc

theorem allMasks_length (n : Nat) : (allMasks n).length = 2 ^ n := by
  induction n with
  | zero => simp [allMasks]
  | succ n ih =>
    simp only [allMasks, List.flatMap_cons, List.flatMap_nil, List.append_nil,
      List.length_append, List.length_map, ih]
    rw [pow_succ]
    omega

theorem flips_maskPass {T : Type} (inp r : List T) (m : List Bool) :
    flips (maskPass inp r m) = m := by
  simp only [flips, drawn, maskPass, List.map_map]
  induction m with
  | nil => rfl
  | cons f m ih =>
    cases f <;> simp [ih]

theorem gen_subset_loop_tree_leaves {T : Type} (inp r : List T) :
    (gen_subset_loop_tree inp r).leaves = (allMasks inp.length).map (maskPass inp r) := by
  induction inp generalizing r with
  | nil => simp [gen_subset_loop_tree, Body.leaves, allMasks, maskPass, select]
  | cons i rest ih =>
    simp only [gen_subset_loop_tree, Body.leaves, List.length_cons, allMasks]
    have h2 : List.range (1 + 1) = [0, 1] := by decide
    rw [h2]
    simp only [List.flatMap_cons, List.flatMap_nil, List.append_nil, List.map_append,
      List.map_map, ih]
    congr 1
    · apply List.map_congr_left
      intro m _
      simp [maskPass, select]

theorem loop_gen_subset {T : Type} (inp : List T) :
    loop (gen_subset_tree inp).run (2 ^ inp.length) Gen.fresh
        = some ((allMasks inp.length).map (maskPass inp [])) ∧
      loop (gen_subset inp) (2 ^ inp.length) Gen.fresh
        = some ((allMasks inp.length).map (select inp)) := by
  have hl : (gen_subset_tree inp).leaves = (allMasks inp.length).map (maskPass inp []) :=
    gen_subset_loop_tree_leaves inp []
  have hn : (gen_subset_tree inp).leaves.length = 2 ^ inp.length := by
    rw [hl, List.length_map, allMasks_length]
  constructor
  · have h := loop_run (gen_subset_tree inp)
    rw [hn, hl] at h
    exact h
  · have h := loop_eval (gen_subset_tree inp)
    rw [hn, hl, ← funext (gen_subset_eq inp)] at h
    simpa [Function.comp_def, maskPass] using h

/-- C10: the loop over `gen_subset(in)` for `in` of `n` items makes exactly `2^n`
passes; each pass returns the items of `in` selected, in input order, by the mask
of its `n` flips (`gen_subset` being one pass of its decision tree, on which the
flips are read), and every mask of length `n` is the mask of exactly one pass.
For `in = [33, 55, 77]` the 8 results are pairwise distinct. -/
theorem gen_subset_enumerates {T : Type} (inp : List T) :
    (∃ passes : List (List (Nat × Nat) × List T),
      (∀ g, gen_subset inp g = (gen_subset_tree inp).eval g) ∧
      loop (gen_subset_tree inp).run (2 ^ inp.length) Gen.fresh = some passes ∧
      loop (gen_subset inp) (2 ^ inp.length) Gen.fresh = some (passes.map Prod.snd) ∧
      (∀ m, loop (gen_subset inp) m Gen.fresh =
        if m < 2 ^ inp.length then none else some (passes.map Prod.snd)) ∧
      passes.length = 2 ^ inp.length ∧
      (∀ r ∈ passes, (flips r).length = inp.length ∧ r.2 = select inp (flips r)) ∧
      (∀ m : List Bool, m.length = inp.length →
        passes.countP (fun r => decide (flips r = m)) = 1)) ∧
    loop (gen_subset [33, 55, 77]) 8 Gen.fresh =
      some [[], [77], [55], [55, 77], [33], [33, 77], [33, 55], [33, 55, 77]] ∧
    ([[], [77], [55], [55, 77], [33], [33, 77], [33, 55], [33, 55, 77]] :
      List (List Nat)).Nodup := by
  have hlen : ((allMasks inp.length).map (maskPass inp [])).length = 2 ^ inp.length := by
    rw [List.length_map, allMasks_length]
  have hout : ((allMasks inp.length).map (maskPass inp [])).map Prod.snd
      = (allMasks inp.length).map (select inp) := by
    simp [Function.comp_def, maskPass]
  refine ⟨⟨(allMasks inp.length).map (maskPass inp []), gen_subset_eq inp,
    (loop_gen_subset inp).1, ?_, ?_, hlen, ?_, ?_⟩, by decide, by decide⟩
  · rw [hout]
    exact (loop_gen_subset inp).2
  · intro m
    have := loop_exact _ _ _ _ (loop_gen_subset inp).2 m
    rw [List.length_map, allMasks_length] at this
    rw [hout]
    exact this
  · intro r hr
    simp only [List.mem_map] at hr
    obtain ⟨m, hm, rfl⟩ := hr
    rw [flips_maskPass]
    exact ⟨(mem_allMasks _ m).1 hm, by simp [maskPass]⟩
  · intro m hm
    have h := countP_eq_one_of_nodup _ m (allMasks_nodup inp.length)
      ((mem_allMasks _ m).2 hm)
    rw [List.countP_map]
    have hfun : ((fun r => decide (flips r = m)) ∘ maskPass inp [])
        = fun x => decide (x = m) := by
      funext x
      simp [flips_maskPass]
    rw [hfun]
    exact h

/-! ## Empty input, the fresh engine and single draws -/

/-- C13: on an empty vector `gen_comb`, `gen_perm` and `gen_subset` return the empty
vector, make no draw and leave the engine unchanged, in every engine state; the
do-while loop over each of them on a fresh engine makes exactly one pass and yields
the single empty result. -/
theorem empty_input {T : Type} (g : Gen) :
    gen_comb ([] : List T) g = some ([], g) ∧
    gen_perm ([] : List T) g = some ([], g) ∧
    gen_subset ([] : List T) g = some ([], g) ∧
    (gen_comb_tree ([] : List T)).run g = some (([], some []), g) ∧
    (gen_perm_tree ([] : List T)).run g = some (([], some []), g) ∧
    (gen_subset_tree ([] : List T)).run g = some (([], []), g) ∧
    (∀ m, loop (gen_comb ([] : List T)) m Gen.fresh = if m < 1 then none else some [[]]) ∧
    (∀ m, loop (gen_perm ([] : List T)) m Gen.fresh = if m < 1 then none else some [[]]) ∧
    (∀ m, loop (gen_subset ([] : List T)) m Gen.fresh = if m < 1 then none else some [[]]) := by
  have hc : loop (gen_comb ([] : List T)) 1 Gen.fresh = some [[]] := by
    simp [loop, gen_comb, is_done, scan, Gen.fresh]
  have hp : loop (gen_perm ([] : List T)) 1 Gen.fresh = some [[]] := by
    simp [loop, gen_perm, is_done, scan, Gen.fresh]
  have hs : loop (gen_subset ([] : List T)) 1 Gen.fresh = some [[]] := by
    simp [loop, gen_subset, gen_subset_loop, is_done, scan, Gen.fresh]
  refine ⟨by simp [gen_comb], by simp [gen_perm], by simp [gen_subset, gen_subset_loop],
    by simp [gen_comb_tree, Body.run], by simp [gen_perm_tree, Body.run],
    by simp [gen_subset_tree, gen_subset_loop_tree, Body.run], ?_, ?_, ?_⟩
  · intro m; simpa using loop_exact _ _ _ _ hc m
  · intro m; simpa using loop_exact _ _ _ _ hp m
  · intro m; simpa using loop_exact _ _ _ _ hs m

/-- C14: on a freshly constructed engine `is_done` returns `true` and leaves the
engine unchanged, so the check-first loop `while (!g.is_done()) body` runs its body
zero times, whatever the body is. -/
theorem fresh_is_done {β : Type} (body : Gen → Option (β × Gen)) (fuel : Nat) :
    is_done Gen.fresh = (true, Gen.fresh) ∧
    loopHead body (fuel + 1) Gen.fresh = some [] := by
  have h : is_done Gen.fresh = (true, Gen.fresh) := by
    simp [is_done, scan, Gen.fresh]
  exact ⟨h, by simp [loopHead, h]⟩

theorem gen_at_end (g : Gen) (b : Nat) (h : g.p = g.v.length) :
    gen g b = some (0, ⟨g.v ++ [(0, b)], g.p + 1⟩) := by
  unfold gen
  simp [h]

theorem gen_inside (g : Gen) (b : Nat) (c : Nat × Nat) (h : g.v[g.p]? = some c) :
    gen g b = some (c.1, ⟨g.v.set g.p (c.1, b), g.p + 1⟩) := by
  have hlt : g.p < g.v.length := by
    rcases Nat.lt_or_ge g.p g.v.length with h1 | h1
    · exact h1
    · rw [List.getElem?_eq_none h1] at h; simp at h
  have hne : g.p ≠ g.v.length := by omega
  unfold gen
  simp only [hne, if_false, Nat.add_sub_cancel, h]

/-- C15: the effect of one draw.  With the cursor `p` not past the trace, `gen(b)`
returns the current value of the counter at `p` when there is one and otherwise
appends a counter and returns 0; afterwards the counter at `p` is
`(value returned, b)`, the cursor is `p + 1`, the trace has length
`max (old length) (p + 1)`, and every counter at another position is as before
(and so is the current value of every counter). -/
theorem gen_effect (g : Gen) (b : Nat) (hp : g.p ≤ g.v.length) :
    ∃ (x : Nat) (g1 : Gen), gen g b = some (x, g1) ∧
      (∀ c, g.v[g.p]? = some c → x = c.1) ∧
      (g.v[g.p]? = none → x = 0 ∧ g1.v = g.v ++ [(0, b)]) ∧
      g1.v[g.p]? = some (x, b) ∧
      g1.p = g.p + 1 ∧
      g1.v.length = max g.v.length (g.p + 1) ∧
      (∀ j, j < g.v.length → (g1.v[j]?).map Prod.fst = (g.v[j]?).map Prod.fst) ∧
      (∀ j, j ≠ g.p → g1.v[j]? = g.v[j]?) := by
  rcases Nat.lt_or_ge g.p g.v.length with hlt | hge
  · have hc : g.v[g.p]? = some g.v[g.p] := List.getElem?_eq_getElem hlt
    refine ⟨g.v[g.p].1, _, gen_inside g b _ hc, ?_, ?_, ?_, rfl, ?_, ?_, ?_⟩
    · intro c h
      rw [hc] at h
      simp only [Option.some.injEq] at h
      rw [h]
    · intro h
      rw [hc] at h
      simp at h
    · simp [hlt]
    · simp only [List.length_set]
      omega
    · intro j hj
      by_cases hjp : g.p = j
      · subst hjp
        simp [hlt]
      · simp [List.getElem?_set, hjp]
    · intro j hj
      simp only
      rw [List.getElem?_set_ne (Ne.symm hj)]
  · have heq : g.p = g.v.length := by omega
    have hn : g.v[g.p]? = none := List.getElem?_eq_none hge
    refine ⟨0, _, gen_at_end g b heq, ?_, ?_, ?_, rfl, ?_, ?_, ?_⟩
    · intro c h
      rw [hn] at h
      simp at h
    · intro _
      exact ⟨rfl, rfl⟩
    · simp [heq]
    · simp only [List.length_append, List.length_singleton]
      omega
    · intro j hj
      simp only
      rw [List.getElem?_append_left hj]
    · intro j hj
      simp only
      rcases Nat.lt_or_ge j g.v.length with h1 | h1
      · rw [List.getElem?_append_left h1]
      · rw [List.getElem?_eq_none h1, List.getElem?_eq_none]
        simp only [List.length_append, List.length_singleton]
        omega

/-- C15 on the trace `[(2, 5), (1, 3)]` with the cursor at 1. -/
theorem gen_effect_witness :
    ∃ (x : Nat) (g1 : Gen), gen ⟨[(2, 5), (1, 3)], 1⟩ 7 = some (x, g1) ∧
      (∀ c, (⟨[(2, 5), (1, 3)], 1⟩ : Gen).v[(⟨[(2, 5), (1, 3)], 1⟩ : Gen).p]? = some c →
        x = c.1) ∧
      ((⟨[(2, 5), (1, 3)], 1⟩ : Gen).v[(⟨[(2, 5), (1, 3)], 1⟩ : Gen).p]? = none →
        x = 0 ∧ g1.v = (⟨[(2, 5), (1, 3)], 1⟩ : Gen).v ++ [(0, 7)]) ∧
      g1.v[(⟨[(2, 5), (1, 3)], 1⟩ : Gen).p]? = some (x, 7) ∧
      g1.p = (⟨[(2, 5), (1, 3)], 1⟩ : Gen).p + 1 ∧
      g1.v.length = max (⟨[(2, 5), (1, 3)], 1⟩ : Gen).v.length
        ((⟨[(2, 5), (1, 3)], 1⟩ : Gen).p + 1) ∧
      (∀ j, j < (⟨[(2, 5), (1, 3)], 1⟩ : Gen).v.length →
        (g1.v[j]?).map Prod.fst = ((⟨[(2, 5), (1, 3)], 1⟩ : Gen).v[j]?).map Prod.fst) ∧
      (∀ j, j ≠ (⟨[(2, 5), (1, 3)], 1⟩ : Gen).p →
        g1.v[j]? = (⟨[(2, 5), (1, 3)], 1⟩ : Gen).v[j]?) :=
  gen_effect ⟨[(2, 5), (1, 3)], 1⟩ 7 (by decide)

theorem gen_seq_at_end (bs : List Nat) (t : List (Nat × Nat)) :
    gen_seq bs ⟨t, t.length⟩ =
      some (List.replicate bs.length 0,
        ⟨t ++ bs.map (fun b => (0, b)), t.length + bs.length⟩) := by
  induction bs generalizing t with
  | nil => simp [gen_seq]
  | cons b bs ih =>
    simp only [gen_seq]
    rw [gen_at_end ⟨t, t.length⟩ b rfl]
    have h := ih (t ++ [(0, b)])
    simp only [List.length_append, List.length_singleton] at h
    simp only [h, List.length_cons, List.replicate_succ, List.map_cons, List.append_assoc,
      List.singleton_append]
    simp only [Nat.add_assoc, Nat.add_comm 1]

/-- C17: on a fresh engine, with no `is_done` call in between, the calls
`gen(b_1), ..., gen(b_k)` all return 0 and leave the trace `[(0, b_1), ..., (0, b_k)]`
with the cursor at `k`; the first pass of the demo loops so gives the empty vector
for `gen_vec`, `gen_comb` and `gen_subset` and the input in its order for
`gen_perm`. -/
theorem first_pass_zero (bs : List Nat) :
    gen_seq bs Gen.fresh =
      some (List.replicate bs.length 0, ⟨bs.map (fun b => (0, b)), bs.length⟩) ∧
    (gen_vec 3 3 Gen.fresh).map Prod.fst = some [] ∧
    (gen_comb [33, 55, 77] Gen.fresh).map Prod.fst = some [] ∧
    (gen_subset [33, 55, 77] Gen.fresh).map Prod.fst = some [] ∧
    (gen_perm [33, 55, 77] Gen.fresh).map Prod.fst = some [33, 55, 77] := by
  refine ⟨?_, by decide, by decide, by decide, by decide⟩
  have h := gen_seq_at_end bs []
  simpa [Gen.fresh] using h

theorem gen_cursor_le (g : Gen) (b : Nat) (hp : g.p ≤ g.v.length) :
    ∃ (x : Nat) (g1 : Gen), gen g b = some (x, g1) ∧ g1.p ≤ g1.v.length ∧
      g1.v.length ≤ g.v.length + 1 := by
  rcases Nat.lt_or_ge g.p g.v.length with hlt | hge
  · refine ⟨_, _, gen_inside g b _ (List.getElem?_eq_getElem hlt), ?_, ?_⟩
    · simp only [List.length_set]; omega
    · simp only [List.length_set]; omega
  · refine ⟨_, _, gen_at_end g b (by omega), ?_, ?_⟩
    · simp only [List.length_append, List.length_singleton]; omega
    · simp only [List.length_append, List.length_singleton]; omega

theorem is_done_cursor_le (g : Gen) (hp : g.p ≤ g.v.length) :
    (is_done g).2.p ≤ (is_done g).2.v.length := by
  cases hd : (is_done g).1 with
  | true => rw [is_done_true_unchanged g hd]; exact hp
  | false => rw [is_done_false_eq g hd]; exact Nat.zero_le _

theorem runCalls_cursor_le (cs : List Call) (g : Gen) (hp : g.p ≤ g.v.length) :
    ∃ g1, runCalls cs g = some g1 ∧ g1.p ≤ g1.v.length := by
  induction cs generalizing g with
  | nil => exact ⟨g, rfl, hp⟩
  | cons c cs ih =>
    cases c with
    | gen b =>
      obtain ⟨x, g1, hg, h1, _⟩ := gen_cursor_le g b hp
      simp only [runCalls, hg]
      exact ih g1 h1
    | is_done =>
      simp only [runCalls]
      exact ih _ (is_done_cursor_le g hp)

/-- C19: after any finite sequence of `gen` calls (with arbitrary bounds) and
`is_done` calls on a fresh engine, in any order, no call has thrown and the cursor
is at most the trace length; a further `gen` call then does not throw from
`v.at(p - 1)` and lengthens the trace by at most one counter. -/
theorem cursor_within_trace (cs : List Call) (b : Nat) :
    ∃ g : Gen, runCalls cs Gen.fresh = some g ∧ g.p ≤ g.v.length ∧
      ∃ (x : Nat) (g1 : Gen), gen g b = some (x, g1) ∧ g1.v.length ≤ g.v.length + 1 := by
  obtain ⟨g, hg, hp⟩ := runCalls_cursor_le cs Gen.fresh (by simp [Gen.fresh])
  obtain ⟨x, g1, h1, _, h3⟩ := gen_cursor_le g b hp
  exact ⟨g, hg, hp, x, g1, h1, h3⟩

/-! ## The trace at the end of a pass and the order of the passes -/

theorem is_done_length_le (g : Gen) : (is_done g).2.v.length ≤ g.v.length := by
  unfold is_done
  cases hs : scan g.v.reverse with
  | none => exact Nat.le_refl _
  | some r =>
    obtain ⟨l1, c, l2, hl, _, _, hr⟩ := scan_eq_some _ _ hs
    have h1 : g.v.length = (l1 ++ c :: l2).length := by
      rw [← hl, List.length_reverse]
    simp only [List.length_reverse, hr, h1, List.length_append, List.length_cons]
    omega

/-- C16: at the end of every pass of the do-while loop over a deterministic body,
just before `is_done` is called, the cursor equals the trace length and the trace is
exactly the list of `(value returned, bound requested)` of the `gen` calls of that
pass, in call order; so the trace is as long as the pass has draws, and not longer
after `is_done`. -/
theorem trace_invariant {α : Type} (B : Body α) :
    ∃ (n : Nat) (passes : List ((List (Nat × Nat) × α) × Gen)),
      loop (withEnd B.run) n Gen.fresh = some passes ∧
      loop B.run n Gen.fresh = some (passes.map Prod.fst) ∧
      ∀ r ∈ passes, r.2.p = r.2.v.length ∧ r.2.v = r.1.1 ∧
        r.2.v.length = r.1.1.length ∧ (is_done r.2).2.v.length ≤ r.1.1.length := by
  refine ⟨B.leaves.length, B.leaves.map leafEnd, loop_leaves B, ?_, ?_⟩
  · rw [loop_run]
    simp [Function.comp_def, leafEnd]
  · intro r hr
    simp only [List.mem_map] at hr
    obtain ⟨l, _, rfl⟩ := hr
    refine ⟨rfl, rfl, rfl, ?_⟩
    exact is_done_length_le (leafEnd l).2

theorem odometerNext_cons (x : Nat) (s t : List Nat) (h : OdometerNext s t) :
    OdometerNext (x :: s) (x :: t) := by
  obtain ⟨pre, y, s1, t1, rfl, rfl⟩ := h
  exact ⟨x :: pre, y, s1, t1, rfl, rfl⟩

theorem odometerNext_lex (s t : List Nat) (h : OdometerNext s t) :
    List.Lex (fun a b : Nat => a < b) s t := by
  obtain ⟨pre, y, s1, t1, rfl, rfl⟩ := h
  induction pre with
  | nil => exact List.Lex.rel (Nat.lt_succ_self y)
  | cons a pre ih => exact List.Lex.cons ih

theorem chain_blocks (f : Nat → List (List Nat)) (hne : ∀ x, f x ≠ [])
    (hin : ∀ x, List.Chain' OdometerNext (f x))
    (hhead : ∀ x, ∀ t ∈ f x, ∃ t1, t = x :: t1) :
    ∀ (c v : Nat), List.Chain' OdometerNext ((List.range' v c).flatMap f) := by
  intro c
  induction c with
  | zero => intro v; simp
  | succ c ih =>
    intro v
    rw [List.range'_succ, List.flatMap_cons, List.chain'_append]
    refine ⟨hin v, ih (v + 1), ?_⟩
    intro s hs t ht
    obtain ⟨s1, rfl⟩ := hhead v s (List.mem_of_mem_getLast? hs)
    cases c with
    | zero => simp at ht
    | succ c =>
      rw [List.range'_succ, List.flatMap_cons, List.head?_append] at ht
      have hmem : t ∈ f (v + 1) := by
        cases hf : f (v + 1) with
        | nil => exact absurd hf (hne _)
        | cons a l =>
          rw [hf] at ht
          have ht2 : some a = some t := by
            simpa [Option.or] using ht
          simp only [Option.some.injEq] at ht2
          rw [← ht2]
          simp
      obtain ⟨t1, rfl⟩ := hhead (v + 1) t hmem
      exact ⟨[], v, s1, t1, rfl, rfl⟩

theorem paths_ne_nil {α : Type} (B : Body α) : B.paths ≠ [] := by
  intro h
  have h1 := leaves_length_pos B
  have h2 : B.paths.length = B.leaves.length := by simp [Body.paths]
  rw [h] at h2
  simp only [List.length_nil] at h2
  omega

theorem paths_chain {α : Type} (B : Body α) : List.Chain' OdometerNext B.paths := by
  induction B with
  | ret a => simp [Body.paths, Body.leaves]
  | draw b k ih =>
    rw [paths_draw, List.range_eq_range']
    apply chain_blocks
    · intro x h
      exact paths_ne_nil (k x) (List.map_eq_nil_iff.1 h)
    · intro x
      rw [List.chain'_map]
      exact (ih x).imp (fun s t h => odometerNext_cons x s t h)
    · intro x t ht
      simp only [List.mem_map] at ht
      obtain ⟨t1, _, rfl⟩ := ht
      exact ⟨t1, rfl⟩

theorem paths_lex {α : Type} (B : Body α) :
    B.paths.Pairwise (List.Lex (fun a b : Nat => a < b)) := by
  induction B with
  | ret a => simp [Body.paths, Body.leaves]
  | draw b k ih =>
    rw [paths_draw, List.pairwise_flatMap]
    constructor
    · intro x _
      rw [List.pairwise_map]
      exact (ih x).imp (fun h => List.Lex.cons h)
    · refine (List.pairwise_lt_range (b + 1)).imp ?_
      intro x y hxy s hs t ht
      simp only [List.mem_map] at hs ht
      obtain ⟨_, _, rfl⟩ := hs
      obtain ⟨_, _, rfl⟩ := ht
      exact List.Lex.rel hxy

theorem records_draw {α : Type} (b : Nat) (k : Nat → Body α) :
    (Body.draw b k).records =
      (List.range (b + 1)).flatMap (fun x => (k x).records.map (fun s => (x, b) :: s)) := by
  simp [Body.records, Body.leaves, List.map_flatMap, Function.comp_def]

theorem records_ne_nil {α : Type} (B : Body α) : B.records ≠ [] := by
  intro h
  have h1 := leaves_length_pos B
  have h2 : B.records.length = B.leaves.length := by simp [Body.records]
  rw [h] at h2
  simp only [List.length_nil] at h2
  omega

/-- The first leaf of a decision tree has every draw 0. -/
theorem records_head_zero {α : Type} (B : Body α) :
    ∀ s ∈ B.records.head?, ∀ c ∈ s, c.1 = 0 := by
  induction B with
  | ret a => simp [Body.records, Body.leaves]
  | draw b k ih =>
    intro s hs c hc
    rw [records_draw, List.range_eq_range', List.range'_succ, List.flatMap_cons,
      List.head?_append, List.head?_map] at hs
    cases hk : (k 0).records.head? with
    | none =>
      rw [List.head?_eq_none_iff] at hk
      exact absurd hk (records_ne_nil (k 0))
    | some s0 =>
      rw [hk] at hs
      have hs2 : s = (0, b) :: s0 := by
        simpa [Option.or] using hs.symm
      subst hs2
      rcases List.mem_cons.1 hc with rfl | hc
      · rfl
      · exact ih 0 s0 (by rw [hk]; rfl) c hc

/-- The last leaf of a decision tree has every draw at its bound. -/
theorem records_last_full {α : Type} (B : Body α) :
    ∀ s ∈ B.records.getLast?, ∀ c ∈ s, c.1 = c.2 := by
  induction B with
  | ret a => simp [Body.records, Body.leaves]
  | draw b k ih =>
    intro s hs c hc
    rw [records_draw, List.range_succ, List.flatMap_append, List.flatMap_cons,
      List.flatMap_nil, List.append_nil, List.getLast?_append, List.getLast?_map] at hs
    cases hk : (k b).records.getLast? with
    | none =>
      rw [List.getLast?_eq_none_iff] at hk
      exact absurd hk (records_ne_nil (k b))
    | some s0 =>
      rw [hk] at hs
      have hs2 : s = (b, b) :: s0 := by
        simpa [Option.or] using hs.symm
      subst hs2
      rcases List.mem_cons.1 hc with rfl | hc
      · rfl
      · exact ih b s0 (by rw [hk]; rfl) c hc

theorem odometerStep_cons (c : Nat × Nat) (s t : List (Nat × Nat)) (h : OdometerStep s t) :
    OdometerStep (c :: s) (c :: t) := by
  obtain ⟨pre, x, b, s1, t1, rfl, rfl, hx, hs, ht⟩ := h
  exact ⟨c :: pre, x, b, s1, t1, rfl, rfl, hx, hs, ht⟩

theorem odometerStep_values (s t : List (Nat × Nat)) (h : OdometerStep s t) :
    OdometerNext (s.map Prod.fst) (t.map Prod.fst) := by
  obtain ⟨pre, x, b, s1, t1, rfl, rfl, _, _, _⟩ := h
  exact ⟨pre.map Prod.fst, x, s1.map Prod.fst, t1.map Prod.fst, by simp, by simp⟩

theorem step_blocks {α : Type} (b : Nat) (k : Nat → Body α)
    (hin : ∀ x, List.Chain' OdometerStep (k x).records) :
    ∀ (c v : Nat), v + c ≤ b + 1 →
      List.Chain' OdometerStep
        ((List.range' v c).flatMap (fun x => (k x).records.map (fun s => (x, b) :: s))) := by
  intro c
  induction c with
  | zero => intro v _; simp
  | succ c ih =>
    intro v hv
    rw [List.range'_succ, List.flatMap_cons, List.chain'_append]
    refine ⟨?_, ih (v + 1) (by omega), ?_⟩
    · rw [List.chain'_map]
      exact (hin v).imp (fun s t h => odometerStep_cons (v, b) s t h)
    · intro s hs t ht
      rw [List.getLast?_map] at hs
      cases hl : (k v).records.getLast? with
      | none => rw [hl] at hs; simp at hs
      | some s0 =>
        rw [hl] at hs
        have hs2 : s = (v, b) :: s0 := by simpa using hs.symm
        cases c with
        | zero => simp at ht
        | succ c =>
          rw [List.range'_succ, List.flatMap_cons, List.head?_append, List.head?_map] at ht
          cases hh : (k (v + 1)).records.head? with
          | none =>
            rw [List.head?_eq_none_iff] at hh
            exact absurd hh (records_ne_nil (k (v + 1)))
          | some t0 =>
            rw [hh] at ht
            have ht2 : t = (v + 1, b) :: t0 := by
              simpa [Option.or] using ht.symm
            refine ⟨[], v, b, s0, t0, by rw [hs2]; rfl, by rw [ht2]; rfl, by omega, ?_, ?_⟩
            · exact records_last_full (k v) s0 (by rw [hl]; rfl)
            · exact records_head_zero (k (v + 1)) t0 (by rw [hh]; rfl)

/-- The leaves of a decision tree, in depth-first order, follow each other by
odometer steps with rightmost priority. -/
theorem records_chain {α : Type} (B : Body α) : List.Chain' OdometerStep B.records := by
  induction B with
  | ret a => simp [Body.records, Body.leaves]
  | draw b k ih =>
    rw [records_draw, List.range_eq_range']
    exact step_blocks b k ih (b + 1) 0 (by omega)

/-- C18: the do-while loop over a deterministic body makes its passes in depth-first
order with the last-drawn digit changing fastest.  The passes are the leaves of the
decision tree in depth-first order, none skipped; the first pass draws only zeros and
the last pass only values at their bounds; each pass follows the previous one by an
odometer step with rightmost priority: they agree on a prefix, the next draw is
larger by exactly one, every later draw of the previous pass was at its bound and
every later draw of the new pass is 0.  Hence the values drawn are strictly greater,
in lexicographic order, than those of the previous pass, and no sequence of draws
occurs in two passes. -/
theorem passes_increase {α : Type} (B : Body α) :
    ∃ (n : Nat) (passes : List (List (Nat × Nat) × α)),
      loop B.run n Gen.fresh = some passes ∧
      (∀ m, loop B.run m Gen.fresh = if m < n then none else some passes) ∧
      passes = B.leaves ∧
      (∀ vs : List Nat, B.isLeaf vs = true ↔ vs ∈ passes.map drawn) ∧
      (∀ r ∈ passes.head?, ∀ c ∈ r.1, c.1 = 0) ∧
      (∀ r ∈ passes.getLast?, ∀ c ∈ r.1, c.1 = c.2) ∧
      List.Chain' OdometerStep (passes.map Prod.fst) ∧
      (∀ s t, OdometerStep s t → OdometerNext (s.map Prod.fst) (t.map Prod.fst)) ∧
      List.Chain' OdometerNext (passes.map drawn) ∧
      (∀ s t, OdometerNext s t → List.Lex (fun a b : Nat => a < b) s t) ∧
      (passes.map drawn).Pairwise (List.Lex (fun a b : Nat => a < b)) ∧
      (passes.map drawn).Nodup := by
  refine ⟨B.leaves.length, B.leaves, loop_run B, loop_exact _ _ _ _ (loop_run B), rfl,
    isLeaf_iff_mem_paths B, ?_, ?_, records_chain B, odometerStep_values, paths_chain B,
    odometerNext_lex, paths_lex B, paths_nodup B⟩
  · intro r hr c hc
    refine records_head_zero B r.1 ?_ c hc
    rw [Body.records, List.head?_map]
    simp only [Option.mem_def] at hr
    rw [hr]
    rfl
  · intro r hr c hc
    refine records_last_full B r.1 ?_ c hc
    rw [Body.records, List.getLast?_map]
    simp only [Option.mem_def] at hr
    rw [hr]
    rfl

/-! ## Selections with replacement -/

theorem flatMap_congr_mem {β γ : Type} (l : List β) (f h : β → List γ)
    (hfh : ∀ x ∈ l, f x = h x) : l.flatMap f = l.flatMap h := by
  induction l with
  | nil => rfl
  | cons x l ih =>
    rw [List.flatMap_cons, List.flatMap_cons, hfh x (by simp),
      ih (fun y hy => hfh y (by simp [hy]))]

theorem atIdx_cons {T : Type} (inp : List T) (i : Nat) (s : List Nat) (x : T)
    (h : inp[i]? = some x) : atIdx inp (i :: s) = x :: atIdx inp s := by
  simp [atIdx, List.filterMap_cons, h]

theorem atIdx_map_some {T : Type} (inp : List T) (s : List Nat)
    (h : ∀ i ∈ s, i < inp.length) :
    (atIdx inp s).map some = s.map (fun i => inp[i]?) := by
  induction s with
  | nil => rfl
  | cons i s ih =>
    have hi : i < inp.length := h i (by simp)
    rw [atIdx_cons inp i s inp[i] (List.getElem?_eq_getElem hi)]
    simp only [List.map_cons, List.getElem?_eq_getElem hi]
    rw [ih (fun j hj => h j (by simp [hj]))]

theorem gen_comb_loop_tree_leaves {T : Type} (inp : List T) (hpos : 0 < inp.length)
    (k : Nat) (r : List T) :
    (gen_comb_loop_tree inp inp.length k r).leaves
      = (seqsOfLen (inp.length - 1) k).map (combPass inp r) := by
  induction k generalizing r with
  | zero => simp [gen_comb_loop_tree, Body.leaves, seqsOfLen, combPass, atIdx]
  | succ k ih =>
    simp only [gen_comb_loop_tree, Body.leaves, seqsOfLen, List.map_flatMap, List.map_map]
    apply flatMap_congr_mem
    intro i hi
    have hi' : i < inp.length := by
      rw [List.mem_range] at hi; omega
    have hx : inp[i]? = some inp[i] := List.getElem?_eq_getElem hi'
    simp only [hx, ih, List.map_map]
    apply List.map_congr_left
    intro s _
    simp [combPass, atIdx_cons inp i s inp[i] hx]

theorem gen_comb_tree_leaves {T : Type} (inp : List T) (hpos : 0 < inp.length) :
    (gen_comb_tree inp).leaves = (seqsUpTo inp.length (inp.length - 1)).map (combLeaf inp) := by
  unfold gen_comb_tree
  have hgt : inp.length > 0 := hpos
  simp only [hgt, if_true, Body.leaves, seqsUpTo, List.map_flatMap]
  apply flatMap_congr_mem
  intro n _
  rw [gen_comb_loop_tree_leaves inp hpos n [], List.map_map]
  apply List.map_congr_left
  intro s hs
  have hl : s.length = n := ((mem_seqsOfLen _ _ s).1 hs).1
  simp [combPass, combLeaf, hl]

theorem drawn_combLeaf {T : Type} (inp : List T) (s : List Nat) :
    drawn (combLeaf inp s) = s.length :: s := by
  simp only [drawn, combLeaf, List.map_cons, List.map_map, List.cons.injEq, true_and]
  induction s with
  | nil => rfl
  | cons i s ih => simp [ih]

theorem atIdx_injOn {T : Type} (inp : List T) (hnd : inp.Nodup) (s t : List Nat)
    (hs : ∀ i ∈ s, i < inp.length) (ht : ∀ i ∈ t, i < inp.length)
    (h : atIdx inp s = atIdx inp t) : s = t := by
  have hm : s.map (fun i => inp[i]?) = t.map (fun i => inp[i]?) := by
    rw [← atIdx_map_some inp s hs, ← atIdx_map_some inp t ht, h]
  clear h
  induction s generalizing t with
  | nil =>
    cases t with
    | nil => rfl
    | cons j t => simp at hm
  | cons i s ih =>
    cases t with
    | nil => simp at hm
    | cons j t =>
      simp only [List.map_cons, List.cons.injEq] at hm
      have hij : i = j := List.getElem?_inj (hs i (by simp)) hnd hm.1
      rw [hij, ih t (fun k hk => hs k (by simp [hk])) (fun k hk => ht k (by simp [hk])) hm.2]

theorem loop_gen_comb {T : Type} (inp : List T) (hpos : 0 < inp.length) :
    loop (gen_comb_tree inp).run (seqsUpTo inp.length (inp.length - 1)).length Gen.fresh
        = some ((seqsUpTo inp.length (inp.length - 1)).map (combLeaf inp)) ∧
      loop (gen_comb inp) (seqsUpTo inp.length (inp.length - 1)).length Gen.fresh
        = some ((seqsUpTo inp.length (inp.length - 1)).map (atIdx inp)) := by
  have hl := gen_comb_tree_leaves inp hpos
  have hn : (gen_comb_tree inp).leaves.length
      = (seqsUpTo inp.length (inp.length - 1)).length := by
    rw [hl, List.length_map]
  have h := loop_run (gen_comb_tree inp)
  rw [hn, hl] at h
  refine ⟨h, ?_⟩
  rw [funext (gen_comb_eq inp)]
  refine loop_evalOpt _ _ _ _ _ h ?_
  simp [Function.comp_def, combLeaf]

theorem seqsUpTo_comb_length (sz : Nat) (hpos : 0 < sz) :
    (seqsUpTo sz (sz - 1)).length = Finset.sum (Finset.range (sz + 1)) (fun n => sz ^ n) := by
  rw [seqsUpTo_length]
  have : sz - 1 + 1 = sz := by omega
  rw [this]

/-- C12, as the code has it: for a non-empty `in` of size `sz`, the loop over
`gen_comb(in)` has, for every `n` in `0..sz` and every index sequence `(i_1..i_n)` with
each `i_j` in `[0, sz-1]`, exactly one pass that draws the count `n` and then these
indices, and that pass returns `[in[i_1], ..., in[i_n]]`; every pass is of this kind;
when the items of `in` are pairwise distinct no vector is returned twice; the number
of passes is the sum over `n = 0..sz` of `sz^n`, which is 40 for `sz = 3`. -/
theorem gen_comb_enumerates {T : Type} (inp : List T) (hne : inp ≠ []) :
    ∃ (passes : List (List (Nat × Nat) × Option (List T))) (outs : List (List T)),
      (∀ g, gen_comb inp g = (gen_comb_tree inp).evalOpt g) ∧
      loop (gen_comb_tree inp).run passes.length Gen.fresh = some passes ∧
      passes.map Prod.snd = outs.map some ∧
      loop (gen_comb inp) passes.length Gen.fresh = some outs ∧
      (∀ m, loop (gen_comb inp) m Gen.fresh =
        if m < passes.length then none else some outs) ∧
      (∀ r ∈ passes, ∃ s : List Nat, drawn r = s.length :: s ∧ s.length ≤ inp.length ∧
        (∀ i ∈ s, i < inp.length) ∧ r.2 = some (atIdx inp s) ∧
        (atIdx inp s).map some = s.map (fun i => inp[i]?)) ∧
      (∀ s : List Nat, s.length ≤ inp.length → (∀ i ∈ s, i < inp.length) →
        passes.countP (fun r => decide (drawn r = s.length :: s)) = 1) ∧
      (inp.Nodup → outs.Nodup) ∧
      passes.length =
        Finset.sum (Finset.range (inp.length + 1)) (fun n => inp.length ^ n) ∧
      (inp.length = 3 → passes.length = 40) := by
  have hpos : 0 < inp.length := List.length_pos.2 hne
  have hlt : ∀ i : Nat, i ≤ inp.length - 1 ↔ i < inp.length := fun i => by omega
  have hlen : ((seqsUpTo inp.length (inp.length - 1)).map (combLeaf inp)).length
      = (seqsUpTo inp.length (inp.length - 1)).length := List.length_map _ _
  have hsum := seqsUpTo_comb_length inp.length hpos
  refine ⟨(seqsUpTo inp.length (inp.length - 1)).map (combLeaf inp),
    (seqsUpTo inp.length (inp.length - 1)).map (atIdx inp), gen_comb_eq inp, ?_, ?_, ?_, ?_,
    ?_, ?_, ?_, ?_, ?_⟩
  · rw [hlen]; exact (loop_gen_comb inp hpos).1
  · simp [Function.comp_def, combLeaf]
  · rw [hlen]; exact (loop_gen_comb inp hpos).2
  · intro m
    have := loop_exact _ _ _ _ (loop_gen_comb inp hpos).2 m
    rw [List.length_map] at this
    rw [hlen]
    exact this
  · intro r hr
    simp only [List.mem_map] at hr
    obtain ⟨s, hs, rfl⟩ := hr
    have hs' := (mem_seqsUpTo _ _ s).1 hs
    have hb : ∀ i ∈ s, i < inp.length := fun i hi => (hlt i).1 (hs'.2 i hi)
    exact ⟨s, drawn_combLeaf inp s, hs'.1, hb, rfl, atIdx_map_some inp s hb⟩
  · intro s hl hs
    have hmem : s ∈ seqsUpTo inp.length (inp.length - 1) :=
      (mem_seqsUpTo _ _ s).2 ⟨hl, fun i hi => (hlt i).2 (hs i hi)⟩
    have h := countP_eq_one_of_nodup _ s (seqsUpTo_nodup _ _) hmem
    rw [List.countP_map]
    have hfun : ((fun r => decide (drawn r = s.length :: s)) ∘ combLeaf inp)
        = fun t => decide (t = s) := by
      funext t
      simp only [Function.comp, drawn_combLeaf, List.cons.injEq]
      by_cases hts : t = s
      · simp [hts]
      · simp [hts]
    rw [hfun]
    exact h
  · intro hnd
    refine List.Nodup.map_on ?_ (seqsUpTo_nodup _ _)
    intro s hs t ht hst
    exact atIdx_injOn inp hnd s t
      (fun i hi => (hlt i).1 (((mem_seqsUpTo _ _ s).1 hs).2 i hi))
      (fun i hi => (hlt i).1 (((mem_seqsUpTo _ _ t).1 ht).2 i hi)) hst
  · rw [hlen]; exact hsum
  · intro h3
    rw [hlen, hsum, h3]
    decide

/-- C12 on the demo input `[33, 55, 77]`. -/
theorem gen_comb_enumerates_witness :
    ([33, 55, 77] : List Nat) ≠ [] ∧
    ∃ (passes : List (List (Nat × Nat) × Option (List Nat))) (outs : List (List Nat)),
      (∀ g, gen_comb [33, 55, 77] g = (gen_comb_tree [33, 55, 77]).evalOpt g) ∧
      loop (gen_comb_tree [33, 55, 77]).run passes.length Gen.fresh = some passes ∧
      passes.map Prod.snd = outs.map some ∧
      loop (gen_comb [33, 55, 77]) passes.length Gen.fresh = some outs ∧
      (∀ m, loop (gen_comb [33, 55, 77]) m Gen.fresh =
        if m < passes.length then none else some outs) ∧
      (∀ r ∈ passes, ∃ s : List Nat, drawn r = s.length :: s ∧
        s.length ≤ ([33, 55, 77] : List Nat).length ∧
        (∀ i ∈ s, i < ([33, 55, 77] : List Nat).length) ∧
        r.2 = some (atIdx [33, 55, 77] s) ∧
        (atIdx [33, 55, 77] s).map some = s.map (fun i => ([33, 55, 77] : List Nat)[i]?)) ∧
      (∀ s : List Nat, s.length ≤ ([33, 55, 77] : List Nat).length →
        (∀ i ∈ s, i < ([33, 55, 77] : List Nat).length) →
        passes.countP (fun r => decide (drawn r = s.length :: s)) = 1) ∧
      (([33, 55, 77] : List Nat).Nodup → outs.Nodup) ∧
      passes.length =
        Finset.sum (Finset.range (([33, 55, 77] : List Nat).length + 1))
          (fun n => ([33, 55, 77] : List Nat).length ^ n) ∧
      (([33, 55, 77] : List Nat).length = 3 → passes.length = 40) :=
  ⟨by decide, gen_comb_enumerates [33, 55, 77] (by decide)⟩

/-- C12 as stated fails when `in` has a repeated item: the loop over
`gen_comb([5, 5])` makes 7 passes and returns the vector `[in[0]] = [5]` in two of
them, once for the index sequence `(0)` and once for `(1)`. -/
theorem gen_comb_vector_twice :
    loop (gen_comb [5, 5]) 7 Gen.fresh =
      some [[], [5], [5], [5, 5], [5, 5], [5, 5], [5, 5]] ∧
    atIdx [5, 5] [0] = [5] ∧
    ([[], [5], [5], [5, 5], [5, 5], [5, 5], [5, 5]] : List (List Nat)).countP
      (fun o => decide (o = atIdx [5, 5] [0])) = 2 := by
  decide

/-! ## Permutations -/

theorem gen_perm_loop_tree_leaves {T : Type} (inp : List T) (fuel : Nat) (pool : List Nat)
    (r : List T) (hlen : pool.length = fuel) (hidx : ∀ ix ∈ pool, ix < inp.length) :
    (gen_perm_loop_tree inp fuel pool r).leaves.map Prod.snd
      = (permsOf fuel pool).map (fun s => some (r ++ atIdx inp s)) := by
  induction fuel generalizing pool r with
  | zero =>
    cases pool with
    | nil => simp [gen_perm_loop_tree, Body.leaves, permsOf, atIdx]
    | cons i0 is => simp at hlen
  | succ fuel ih =>
    cases pool with
    | nil => simp at hlen
    | cons i0 is =>
      have hl1 : (i0 :: is).length - 1 + 1 = fuel + 1 := by rw [hlen]; rfl
      simp only [gen_perm_loop_tree, Body.leaves, permsOf, List.map_flatMap, hl1]
      apply flatMap_congr_mem
      intro j hj
      have hj' : j < (i0 :: is).length := by
        rw [List.mem_range] at hj; omega
      have hix : (i0 :: is)[j] < inp.length := hidx _ (List.getElem_mem hj')
      have h1 : (i0 :: is)[j]? = some (i0 :: is)[j] := List.getElem?_eq_getElem hj'
      have h2 : inp[(i0 :: is)[j]]? = some inp[(i0 :: is)[j]] := List.getElem?_eq_getElem hix
      have hlen' : ((i0 :: is).eraseIdx j).length = fuel := by
        rw [List.length_eraseIdx_of_lt hj', hlen]; rfl
      have hidx' : ∀ ix ∈ (i0 :: is).eraseIdx j, ix < inp.length :=
        fun ix h => hidx ix ((List.eraseIdx_sublist _ _).subset h)
      have hih := ih ((i0 :: is).eraseIdx j) (r ++ [inp[(i0 :: is)[j]]]) hlen' hidx'
      simp only [h1, h2, List.map_map]
      have hcomp : (Prod.snd ∘ fun l : List (Nat × Nat) × Option (List T) =>
          ((j, (i0 :: is).length - 1) :: l.1, l.2)) = Prod.snd := by
        funext l; rfl
      rw [hcomp, hih]
      apply List.map_congr_left
      intro s _
      simp [atIdx_cons inp _ s _ h2]

theorem perm_cons_eraseIdx (l : List Nat) (j : Nat) (h : j < l.length) :
    (l[j] :: l.eraseIdx j).Perm l := by
  induction l generalizing j with
  | nil => simp at h
  | cons a l ih =>
    cases j with
    | zero => simp
    | succ j =>
      have hj : j < l.length := by simpa using h
      simp only [List.getElem_cons_succ, List.eraseIdx_cons_succ]
      exact (List.Perm.swap a l[j] (l.eraseIdx j)).trans ((ih j hj).cons a)

theorem mem_permsOf_succ (n : Nat) (pool : List Nat) (hlen : pool.length = n + 1)
    (s : List Nat) :
    s ∈ permsOf (n + 1) pool ↔
      ∃ (j : Nat) (hj : j < pool.length), ∃ t ∈ permsOf n (pool.eraseIdx j),
        s = pool[j] :: t := by
  simp only [permsOf, List.mem_flatMap, List.mem_range]
  constructor
  · rintro ⟨j, hj, hs⟩
    have hj' : j < pool.length := by omega
    rw [List.getElem?_eq_getElem hj'] at hs
    simp only [List.mem_map] at hs
    obtain ⟨t, ht, rfl⟩ := hs
    exact ⟨j, hj', t, ht, rfl⟩
  · rintro ⟨j, hj, t, ht, rfl⟩
    refine ⟨j, by omega, ?_⟩
    rw [List.getElem?_eq_getElem hj]
    simp only [List.mem_map]
    exact ⟨t, ht, rfl⟩

theorem mem_permsOf (n : Nat) (pool : List Nat) (hlen : pool.length = n) (s : List Nat) :
    s ∈ permsOf n pool ↔ s.Perm pool := by
  induction n generalizing pool s with
  | zero =>
    have hp : pool = [] := List.length_eq_zero.1 hlen
    subst hp
    simp [permsOf]
  | succ n ih =>
    rw [mem_permsOf_succ n pool hlen]
    constructor
    · rintro ⟨j, hj, t, ht, rfl⟩
      have hlen' : (pool.eraseIdx j).length = n := by
        rw [List.length_eraseIdx_of_lt hj, hlen]; rfl
      have := (ih _ hlen' t).1 ht
      exact (this.cons pool[j]).trans (perm_cons_eraseIdx pool j hj)
    · intro hs
      cases s with
      | nil =>
        have := hs.length_eq
        simp only [List.length_nil, hlen] at this
        omega
      | cons x t =>
        have hx : x ∈ pool := hs.subset (by simp)
        obtain ⟨j, hj, rfl⟩ := List.getElem_of_mem hx
        have hlen' : (pool.eraseIdx j).length = n := by
          rw [List.length_eraseIdx_of_lt hj, hlen]; rfl
        have hp : (pool[j] :: t).Perm (pool[j] :: pool.eraseIdx j) :=
          hs.trans (perm_cons_eraseIdx pool j hj).symm
        exact ⟨j, hj, t, (ih _ hlen' t).2 hp.cons_inv, rfl⟩

theorem permsOf_nodup (n : Nat) (pool : List Nat) (hlen : pool.length = n)
    (hnd : pool.Nodup) : (permsOf n pool).Nodup := by
  induction n generalizing pool with
  | zero => simp [permsOf]
  | succ n ih =>
    simp only [permsOf]
    rw [List.nodup_flatMap]
    constructor
    · intro j hj
      have hj' : j < pool.length := by
        rw [List.mem_range] at hj; omega
      rw [List.getElem?_eq_getElem hj']
      have hlen' : (pool.eraseIdx j).length = n := by
        rw [List.length_eraseIdx_of_lt hj', hlen]; rfl
      exact (ih _ hlen' ((List.eraseIdx_sublist pool j).nodup hnd)).map
        (fun a c h => by simpa using h)
    · refine (List.nodup_range (n + 1)).imp_of_mem ?_
      intro j j2 hj hj2 hne
      have hj' : j < pool.length := by
        rw [List.mem_range] at hj; omega
      have hj2' : j2 < pool.length := by
        rw [List.mem_range] at hj2; omega
      simp only [Function.onFun, List.getElem?_eq_getElem hj', List.getElem?_eq_getElem hj2',
        List.Disjoint, List.mem_map]
      rintro s ⟨a, _, rfl⟩ ⟨c, _, hc⟩
      simp only [List.cons.injEq] at hc
      exact hne ((hnd.getElem_inj_iff).1 hc.1.symm)

theorem permsOf_length (n : Nat) (pool : List Nat) (hlen : pool.length = n) :
    (permsOf n pool).length = n.factorial := by
  induction n generalizing pool with
  | zero => simp [permsOf]
  | succ n ih =>
    simp only [permsOf]
    rw [length_flatMap_const _ _ n.factorial, List.length_range, Nat.factorial_succ]
    intro j hj
    have hj' : j < pool.length := by
      rw [List.mem_range] at hj; omega
    have hlen' : (pool.eraseIdx j).length = n := by
      rw [List.length_eraseIdx_of_lt hj', hlen]; rfl
    rw [List.getElem?_eq_getElem hj']
    simp only [List.length_map]
    exact ih _ hlen'

theorem loop_gen_perm {T : Type} (inp : List T) :
    loop (gen_perm inp) inp.length.factorial Gen.fresh
      = some ((permsOf inp.length (List.range inp.length)).map (atIdx inp)) := by
  have hl : (gen_perm_tree inp).leaves.map Prod.snd
      = ((permsOf inp.length (List.range inp.length)).map (atIdx inp)).map some := by
    unfold gen_perm_tree
    by_cases hsz : inp.length > 0
    · simp only [hsz, if_true]
      rw [gen_perm_loop_tree_leaves inp _ _ [] (List.length_range _) (by simp)]
      simp [Function.comp_def]
    · have h0 : inp.length = 0 := by omega
      simp [hsz, h0, Body.leaves, permsOf, atIdx]
  have hn : (gen_perm_tree inp).leaves.length = inp.length.factorial := by
    have := congrArg List.length hl
    simp only [List.length_map] at this
    rw [this, permsOf_length _ _ (List.length_range _)]
  have h := loop_run (gen_perm_tree inp)
  rw [hn] at h
  rw [funext (gen_perm_eq inp)]
  exact loop_evalOpt _ _ _ _ _ h hl

theorem atIdx_range {T : Type} (inp : List T) : atIdx inp (List.range inp.length) = inp := by
  have h1 := atIdx_map_some inp (List.range inp.length) (by simp)
  have h2 : inp.map some = (List.range inp.length).map (fun i => inp[i]?) := by
    apply List.ext_getElem?
    intro i
    by_cases hi : i < inp.length
    · simp [List.getElem?_map, List.getElem?_range, hi, List.getElem?_eq_getElem hi]
    · have hge : inp.length ≤ i := by omega
      rw [List.getElem?_eq_none (by simpa using hge), List.getElem?_eq_none (by simpa using hge)]
  exact (List.map_injective_iff.2 (Option.some_injective T)) (h1.trans h2.symm)

/-- C11: the loop over `gen_perm(in)` for `in` of size `sz` makes exactly `sz!` passes;
the passes return `in` rearranged by the lists of a list `perms` of index lists, in
order; these are exactly the permutations of `0..sz-1`, each occurring once, so every
result has length `sz`, uses every input position once and is a permutation of
`in`.  For `in = [33, 55, 77]` the 6 results are pairwise distinct orderings of the
input. -/
theorem gen_perm_enumerates {T : Type} (inp : List T) :
    (∃ perms : List (List Nat),
      loop (gen_perm inp) inp.length.factorial Gen.fresh = some (perms.map (atIdx inp)) ∧
      (∀ m, loop (gen_perm inp) m Gen.fresh =
        if m < inp.length.factorial then none else some (perms.map (atIdx inp))) ∧
      perms.length = inp.length.factorial ∧
      (∀ s : List Nat, s ∈ perms ↔ s.Perm (List.range inp.length)) ∧
      (∀ s : List Nat, s.Perm (List.range inp.length) →
        perms.countP (fun t => decide (t = s)) = 1) ∧
      (∀ s ∈ perms, (atIdx inp s).map some = s.map (fun i => inp[i]?) ∧
        (atIdx inp s).length = inp.length ∧ (atIdx inp s).Perm inp)) ∧
    loop (gen_perm [33, 55, 77]) 6 Gen.fresh =
      some [[33, 55, 77], [33, 77, 55], [55, 33, 77], [55, 77, 33], [77, 33, 55],
        [77, 55, 33]] ∧
    ([[33, 55, 77], [33, 77, 55], [55, 33, 77], [55, 77, 33], [77, 33, 55], [77, 55, 33]] :
      List (List Nat)).Nodup ∧
    (∀ o ∈ ([[33, 55, 77], [33, 77, 55], [55, 33, 77], [55, 77, 33], [77, 33, 55],
        [77, 55, 33]] : List (List Nat)), o.Perm [33, 55, 77]) := by
  have hlen := permsOf_length inp.length (List.range inp.length) (List.length_range _)
  have hmem := mem_permsOf inp.length (List.range inp.length) (List.length_range _)
  refine ⟨⟨permsOf inp.length (List.range inp.length), loop_gen_perm inp, ?_, hlen, hmem, ?_, ?_⟩,
    by decide, by decide, by decide⟩
  · intro m
    have := loop_exact _ _ _ _ (loop_gen_perm inp) m
    rw [List.length_map, hlen] at this
    exact this
  · intro s hs
    exact countP_eq_one_of_nodup _ s
      (permsOf_nodup _ _ (List.length_range _) (List.nodup_range _)) ((hmem s).2 hs)
  · intro s hs
    have hp := (hmem s).1 hs
    have hb : ∀ i ∈ s, i < inp.length := fun i hi => List.mem_range.1 (hp.subset hi)
    have hm := atIdx_map_some inp s hb
    have hpi : (atIdx inp s).Perm inp := by
      have h1 : (atIdx inp s).Perm (atIdx inp (List.range inp.length)) :=
        hp.filterMap (fun i => inp[i]?)
      rw [atIdx_range inp] at h1
      exact h1
    exact ⟨hm, hpi.length_eq, hpi⟩

end Exhaustigen
